import Mathlib

/-!
Verification of the open-addressing hash-table core of this repository.

The model below is a shallow embedding of `src/python/chatgpt/chatgpt6.py`
(class `HashTable` and `ResizableHashTable`; `src/python/Claude/Claude6.py`,
`src/python/deepseek/deepseek6.py` and `src/python/gemini/gemini6.py` are
behaviourally identical for the properties treated here, except where noted),
and of the `DoubleHash` collision strategies of `src/python/Copilot/Copilot1.py`,
`src/python/Claude/Claude1.py` and `src/python/gemini/gemini1.py`.

Conventions of the embedding:
* Python's parallel `_keys` / `_values` arrays are fused into one list of
  `Slot` values; the code always writes both arrays at the same index, so a
  slot with sentinel key also has the sentinel value.
* Keys are `Nat` (the spec restricts keys to non-negative integers, on which
  Python's `%` agrees with `Nat.mod`); values are an arbitrary type `V`.
* `self.size` always equals `len(self._keys)` in the source (both are set
  together in `__init__` and `_resize`), so `Table.size` is derived from the
  slot list.
* The `while True` loops are modelled with an explicit fuel argument; the
  outer `Option` is `none` exactly when the fuel runs out or an index is out
  of range, situations the source cannot reach (proved below for fuel = size);
  the wrapper functions collapse that unreachable case.
* `_len` is a Python `int`, hence `Int` here.
-/

set_option maxHeartbeats 1000000


namespace HT

/-- Slot states of the open-addressing table: the `_empty` sentinel, the
`_deleted` tombstone, or an occupied cell holding key and value. -/
inductive Slot (V : Type) where
  | empty
  | deleted
  | occupied (key : Nat) (val : V)

deriving DecidableEq

/-- State of `chatgpt6.HashTable`: the fused `_keys`/`_values` slot array
and the `_len` counter. -/
structure Table (V : Type) where
  slots : List (Slot V)
  len : Int

deriving DecidableEq

/-- `self.size` (always equal to the slot-array length in the source). -/
def Table.size {V : Type} (t : Table V) : Nat := t.slots.length

/-- `HashTable.__init__(size)`: all slots `_empty`, `_len = 0`. -/
def mkTable (V : Type) (n : Nat) : Table V := ⟨List.replicate n Slot.empty, 0⟩

/-- Loop body of `HashTable.put` (chatgpt6 lines 22-41).  Arguments after the
inserted pair: `initial` is `initial_hash`, then the current `hash_` and the
fuel.  Result: `some (some t')` is a normal return with the updated table,
`some none` is `raise ValueError("Hash table is full")`, and `none` (fuel
exhausted / index out of range) is unreachable from the wrappers, as proved
below. -/
def putAux {V : Type} (t : Table V) (key : Nat) (value : V) (initial : Nat) :
    Nat → Nat → Option (Option (Table V))
  | _, 0 => none
  | h, fuel + 1 =>
    match t.slots[h]? with
    | some Slot.empty =>
      some (some { t with slots := t.slots.set h (Slot.occupied key value), len := t.len + 1 })
    | some Slot.deleted =>
      some (some { t with slots := t.slots.set h (Slot.occupied key value), len := t.len + 1 })
    | some (Slot.occupied k _) =>
      if k = key then
        some (some { t with slots := t.slots.set h (Slot.occupied key value) })
      else
        if (h + 1) % t.size = initial then some none
        else putAux t key value initial ((h + 1) % t.size) fuel
    | none => none

/-- `HashTable.put`: `some t'` on success, `none` for
`ValueError("Hash table is full")`. -/
def put {V : Type} (t : Table V) (key : Nat) (value : V) : Option (Table V) :=
  match putAux t key value (key % t.size) (key % t.size) t.size with
  | some r => r
  | none => none

/-- Loop body of `HashTable.get` (chatgpt6 lines 43-58): stop with `None` at
an `_empty` slot or after a full cycle, return the stored value on a key
match, and keep probing past `_deleted` slots and foreign keys. -/
def getAux {V : Type} (t : Table V) (key : Nat) (initial : Nat) :
    Nat → Nat → Option (Option V)
  | _, 0 => none
  | h, fuel + 1 =>
    match t.slots[h]? with
    | some Slot.empty => some none
    | some Slot.deleted =>
      if (h + 1) % t.size = initial then some none
      else getAux t key initial ((h + 1) % t.size) fuel
    | some (Slot.occupied k v) =>
      if k = key then some (some v)
      else
        if (h + 1) % t.size = initial then some none
        else getAux t key initial ((h + 1) % t.size) fuel
    | none => none

/-- `HashTable.get`: `some v` when the key is found, `none` for Python `None`. -/
def get {V : Type} (t : Table V) (key : Nat) : Option V :=
  match getAux t key (key % t.size) (key % t.size) t.size with
  | some r => r
  | none => none

/-- The value `del_` returns to its caller.  In the source every path of
`del_` produces Python `None` (`return None` at an empty slot or after a full
cycle, bare `return` after tombstoning); `pyBool` is the boolean result the
spec describes and never occurs in the code. -/
inductive PyRet where
  | pyNone
  | pyBool (b : Bool)

deriving DecidableEq

/-- Loop body of `HashTable.del_` (chatgpt6 lines 60-78): same traversal as
`get`; on a key match both arrays are overwritten with `_deleted` and `_len`
is decremented. -/
def delAux {V : Type} (t : Table V) (key : Nat) (initial : Nat) :
    Nat → Nat → Option (Table V × PyRet)
  | _, 0 => none
  | h, fuel + 1 =>
    match t.slots[h]? with
    | some Slot.empty => some (t, PyRet.pyNone)
    | some Slot.deleted =>
      if (h + 1) % t.size = initial then some (t, PyRet.pyNone)
      else delAux t key initial ((h + 1) % t.size) fuel
    | some (Slot.occupied k _) =>
      if k = key then
        some ({ t with slots := t.slots.set h Slot.deleted, len := t.len - 1 }, PyRet.pyNone)
      else
        if (h + 1) % t.size = initial then some (t, PyRet.pyNone)
        else delAux t key initial ((h + 1) % t.size) fuel
    | none => none

/-- `HashTable.del_`: the table after the call together with the Python
return value. -/
def del {V : Type} (t : Table V) (key : Nat) : Table V × PyRet :=
  match delAux t key (key % t.size) (key % t.size) t.size with
  | some r => r
  | none => (t, PyRet.pyNone)

/-- The slot at index `i` is occupied by a key other than `key` (the only
situation in which the probe loops keep going without resolving). -/
def occOther {V : Type} (t : Table V) (key : Nat) (i : Nat) : Prop :=
  ∃ k' v', t.slots[i]? = some (Slot.occupied k' v') ∧ k' ≠ key

/-- Occupied-slot test (a slot whose key is neither sentinel). -/
def isOcc {V : Type} : Slot V → Bool
  | Slot.occupied _ _ => true
  | _ => false

/-- Number of occupied slots of the table. -/
def occCount {V : Type} (t : Table V) : Nat := t.slots.countP isOcc

/-- The occupied slots of a slot list, as (key, value) pairs in slot order
(this is what `_resize` re-inserts). -/
def occPairs {V : Type} (l : List (Slot V)) : List (Nat × V) :=
  l.filterMap (fun s => match s with
    | Slot.occupied k v => some (k, v)
    | _ => none)

/-- `ResizableHashTable.MIN_SIZE`. -/
def MIN_SIZE : Nat := 8

/-- `ResizableHashTable.__init__`: a fresh table of the minimum size. -/
def mkResizable (V : Type) : Table V := mkTable V MIN_SIZE

mutual

/-- `ResizableHashTable.put` (chatgpt6 lines 120-123): delegate to the plain
`put` (`super().put`), then `_resize` when `len(self) >= (self.size * 2) // 3`.
The `fuel` bounds the depth of the dynamically dispatched recursion
`put → _resize → self.put → ...`; the Python recursion depth is bounded (a
nested resize never occurs, which the theorems below establish by always
producing `some` results), so any sufficiently large fuel yields the source
behaviour. -/
def rputF {V : Type} (fuel : Nat) (t : Table V) (key : Nat) (value : V) :
    Option (Table V) :=
  match fuel with
  | 0 => none
  | fuel + 1 =>
    match put t key value with
    | none => none
    | some t' =>
      if (((t'.size * 2) / 3 : Nat) : Int) ≤ t'.len then
        reinsertF fuel (mkTable V (t'.size * 2)) t'.slots
      else some t'
termination_by (fuel, 0)

/-- The re-insert loop of `ResizableHashTable._resize` (chatgpt6 lines
125-139): the doubled table starts with all slots `_empty` and `_len = 0`,
and every occupied slot of the old array is re-inserted in slot order through
`self.put`, i.e. the resizable `put`. -/
def reinsertF {V : Type} (fuel : Nat) (u : Table V) (l : List (Slot V)) :
    Option (Table V) :=
  match l with
  | [] => some u
  | s :: rest =>
    match s with
    | Slot.occupied k v =>
      match rputF fuel u k v with
      | none => none
      | some u' => reinsertF fuel u' rest
    | _ => reinsertF fuel u rest
termination_by (fuel, l.length + 1)

end

/-- `ResizableHashTable.put` with ample fuel (`size + 2` always exceeds the
actual recursion depth, which never passes one resize per put). -/
def rput {V : Type} (t : Table V) (key : Nat) (value : V) : Option (Table V) :=
  rputF (t.size + 2) t key value

/-- A sequence of resizable puts, failing as soon as one put fails. -/
def runRPuts {V : Type} (t : Table V) : List (Nat × V) → Option (Table V)
  | [] => some t
  | (k, v) :: rest =>
    match rput t k v with
    | none => none
    | some t' => runRPuts t' rest

/-- Core invariant of a table obtained by inserting the distinct-key pairs
`assoc` (in order, no deletions): `_len` and the occupied count equal the
number of pairs, every pair is reachable by `get`, occupied slots hold
exactly inserted pairs, and no key occupies two slots. -/
structure InvCore {V : Type} (t : Table V) (assoc : List (Nat × V)) : Prop where
  len_eq : t.len = (assoc.length : Int)
  occ_eq : occCount t = assoc.length
  gets : ∀ p ∈ assoc, get t p.1 = some p.2
  occ_mem : ∀ (i k : Nat) (v : V), t.slots[i]? = some (Slot.occupied k v) → (k, v) ∈ assoc
  key_inj : ∀ (i j k : Nat) (v v' : V), t.slots[i]? = some (Slot.occupied k v) →
    t.slots[j]? = some (Slot.occupied k v') → i = j

/-- Full invariant maintained between resizable puts: the core invariant plus
the load being strictly below the resize threshold and a capacity of at least
`MIN_SIZE`. -/
structure Inv {V : Type} (t : Table V) (assoc : List (Nat × V)) : Prop where
  core : InvCore t assoc
  below : t.len < (((t.size * 2) / 3 : Nat) : Int)
  size_min : 8 ≤ t.size

/-- The value `get` returns at the Python level when stored values may be
Python `None` (modelled as `Option Int` with `none` for `None`): the
not-found result and a stored `None` are the very same Python object, so the
two layers of the embedding collapse into one. -/
def getPy (t : Table (Option Int)) (key : Nat) : Option Int :=
  match get t key with
  | some v => v
  | none => none

/-- `HashTable.__contains__` (chatgpt6 lines 105-106):
`self.get(key) is not None`. -/
def containsPy (t : Table (Option Int)) (key : Nat) : Bool :=
  (getPy t key).isSome

end HT

namespace DH

/-- Modelled from the spec: `check_prime` from `number_theory.prime_numbers`
is imported by the DoubleHash sources but that module is not under `src/`;
the spec only requires primality, modelled as a boolean trial-division
test. -/
def isPrime (n : Nat) : Bool :=
  decide (2 ≤ n) && (List.range n).all (fun d => decide (d < 2) || decide (n % d ≠ 0))

/-- Fuel-bounded search for the first prime at or after candidate `c`
(auxiliary for `nextPrime`; the fallback on exhausted fuel is never reached
at the fuel the callers pass, by Bertrand's postulate). -/
def primeFrom : Nat → Nat → Nat
  | 0, c => c
  | fuel + 1, c => if isPrime c then c else primeFrom fuel (c + 1)

/-- Modelled from the spec: `next_prime(r)` from the missing
`number_theory.prime_numbers` — the smallest prime strictly greater than
`r` ("otherwise advance to the next prime strictly greater"). -/
def nextPrime (r : Nat) : Nat := primeFrom (r + 3) (r + 1)

/-- The smallest prime ≥ `r` exactly as the spec words it: the remainder
itself when it is prime, otherwise the next prime strictly greater. -/
def nextPrimeGe (r : Nat) : Nat := if isPrime r then r else nextPrime r

/-- State of the TheAlgorithms-style base `HashTable` that the `DoubleHash`
classes extend (`hash_table.py` is imported but not under `src/`).  Modelled
from the spec for the missing parts: the table keeps one `values` array with
`None` (here `Option.none`) marking free positions, and a configured
load-factor ceiling `lim_charge`, kept as the exact rational
`limNum / limDen` (with positive `limDen`). -/
structure DHTable where
  values : List (Option Nat)
  limNum : Nat
  limDen : Nat
deriving DecidableEq

/-- `self.size_table`. -/
def DHTable.sizeTable (t : DHTable) : Nat := t.values.length

/-- Modelled from the spec: `hash_function(data) = data mod size_table` (the
home slot; the base class's hash function is not under `src/`). -/
def hashFunction (t : DHTable) (data : Nat) : Nat := data % t.sizeTable

/-- Modelled from the spec: the comparison `balanced_factor() >= lim_charge`
that both collision loops perform, where `balanced_factor()` is the load
factor (occupied count over table size, a value the loops never change) and
`lim_charge = limNum / limDen`; stated by exact cross-multiplication:
`count / size >= limNum / limDen  iff  limNum * size <= limDen * count`. -/
def balancedGe (t : DHTable) : Bool :=
  decide (t.limNum * t.sizeTable ≤ t.limDen * t.values.countP Option.isSome)

/-- `Copilot1.DoubleHash.__hash_function_2(value, data)` (gemini1's
`_secondary_hash` is identical): the prime is derived from
`value % self.size_table` and the hash is `p - (data % p)`. -/
def hashFunction2 (t : DHTable) (value data : Nat) : Nat :=
  let remainder := value % t.sizeTable
  let next_prime_gt := if isPrime remainder then remainder else nextPrime remainder
  next_prime_gt - data % next_prime_gt

/-- `Copilot1.DoubleHash.__hash_double_function(key, data, increment)`
(gemini1's `_double_hash` is identical). -/
def hashDoubleFunction (t : DHTable) (key data increment : Nat) : Nat :=
  (increment * hashFunction2 t key data) % t.sizeTable

/-- `Claude1.DoubleHash._get_secondary_prime(value)`. -/
def getSecondaryPrime (t : DHTable) (value : Nat) : Nat :=
  let hashMod := value % t.sizeTable
  if isPrime hashMod then hashMod else nextPrime hashMod

/-- `Claude1.DoubleHash._calculate_second_hash(key, data)`. -/
def calculateSecondHash (t : DHTable) (key data : Nat) : Nat :=
  getSecondaryPrime t key - data % getSecondaryPrime t key

/-- `Claude1.DoubleHash._calculate_probe_position(key, data, iteration)`. -/
def calculateProbePosition (t : DHTable) (key data iteration : Nat) : Nat :=
  (iteration * calculateSecondHash t key data) % t.sizeTable

/-- The probe-offset formula exactly as the spec words it: with
`p = nextPrimeGe (v mod size)` and `h2(v) = p - (v mod p)`, the offset at
attempt `i` is `(i * h2(v)) mod size` — one single input value `v` feeds
both the prime derivation and the inner modulo. -/
def specProbeOffset (n v i : Nat) : Nat :=
  (i * (nextPrimeGe (v % n) - v % nextPrimeGe (v % n))) % n

/-- Loop of `Copilot1.DoubleHash._collision_resolution` (gemini1's control
flow is the same): while the examined position holds a value different from
`key`, compute a fresh double-hash position when
`balanced_factor() >= lim_charge`, and otherwise set the result to `None`
and stop.  `some (some p)` is a normal return of position `p`, `some none`
returns Python `None`, and outer `none` means the loop is still running when
the fuel runs out (or an index is out of range). -/
def collisionAux (t : DHTable) (key data : Nat) : Nat → Nat → Nat → Option (Option Nat)
  | _, _, 0 => none
  | i, newKey, fuel + 1 =>
    match t.values[newKey]? with
    | none => none
    | some slot =>
      match slot with
      | Option.none => some (some newKey)
      | some v =>
        if v = key then some (some newKey)
        else if balancedGe t then
          collisionAux t key data (i + 1) (hashDoubleFunction t key data i) fuel
        else some none

/-- `Copilot1.DoubleHash._collision_resolution(key, data)`: `i` starts at 1
and the first examined position is `hash_function(data)`. -/
def collisionResolution (t : DHTable) (key data fuel : Nat) : Option (Option Nat) :=
  collisionAux t key data 1 (hashFunction t data) fuel

/-- Loop of `Claude1.DoubleHash._collision_resolution`: same loop condition,
but `None` is returned when `balanced_factor() >= lim_charge` and probing
continues (at `_calculate_probe_position`) otherwise. -/
def claudeCollisionAux (t : DHTable) (key data : Nat) :
    Nat → Nat → Nat → Option (Option Nat)
  | _, _, 0 => none
  | iteration, position, fuel + 1 =>
    match t.values[position]? with
    | none => none
    | some slot =>
      match slot with
      | Option.none => some (some position)
      | some v =>
        if v = key then some (some position)
        else if balancedGe t then some none
        else claudeCollisionAux t key data (iteration + 1)
          (calculateProbePosition t key data iteration) fuel

/-- `Claude1.DoubleHash._collision_resolution(key, data)`. -/
def claudeCollisionResolution (t : DHTable) (key data fuel : Nat) : Option (Option Nat) :=
  claudeCollisionAux t key data 1 (hashFunction t data) fuel

/-- A concrete DoubleHash table state on which the Copilot1/gemini1
collision loop never terminates: size 10, positions 0 and 5 occupied by the
values 20 and 15 (their own home slots), load 2/10, ceiling
`lim_charge = 1/10`. -/
def cycleTable : DHTable :=
  ⟨[some 20, none, none, none, none, some 15, none, none, none, none], 1, 10⟩

end DH

namespace HT

/-- Linear probing advances by one step: rehashing the `j`-th probe position
gives the `(j+1)`-th. -/
theorem probe_step (n initial j : Nat) :
    ((initial + j) % n + 1) % n = (initial + (j + 1)) % n := by
  rw [Nat.mod_add_mod, Nat.add_assoc]

/-- Rehashing returns to `initial_hash` exactly after the table size has been
exhausted: within the first cycle, `(initial + j) % n` rehashes to `initial`
iff `j + 1 = n`. -/
theorem probe_back (n initial j : Nat) (hin : initial < n) (hj : j < n) :
    (((initial + j) % n + 1) % n = initial) ↔ j + 1 = n := by
  rw [probe_step]
  constructor
  · intro h
    have h' : (initial + (j + 1)) % n = initial % n := by
      rw [h, Nat.mod_eq_of_lt hin]
    have h2 : initial + (j + 1) ≡ initial + 0 [MOD n] := by
      unfold Nat.ModEq
      simpa using h'
    have hmod : (j + 1) ≡ 0 [MOD n] := Nat.ModEq.add_left_cancel' initial h2
    have hdvd : n ∣ (j + 1) := (Nat.modEq_zero_iff_dvd).1 hmod
    have hle : n ≤ j + 1 := Nat.le_of_dvd (Nat.succ_pos j) hdvd
    omega
  · intro h
    rw [h, Nat.add_mod_right, Nat.mod_eq_of_lt hin]

/-- Characterisation of the `put` probe loop within one cycle: starting at
the `j`-th probe position with `size - j` fuel, the loop always returns (the
fuel is never exhausted, so the `while True` loop terminates after at most
`size` slot examinations), and it raises `TableFull` precisely when every
remaining probe position of the cycle is occupied by a foreign key. -/
theorem putAux_probe {V : Type} (t : Table V) (key : Nat) (value : V) (initial : Nat)
    (hin : initial < t.size) :
    ∀ fuel j, j < t.size → j + fuel = t.size →
      putAux t key value initial ((initial + j) % t.size) fuel ≠ none ∧
      (putAux t key value initial ((initial + j) % t.size) fuel = some none ↔
        ∀ i, j ≤ i → i < t.size → occOther t key ((initial + i) % t.size)) := by
  intro fuel
  induction fuel with
  | zero => intro j hj hsum; omega
  | succ fuel ih =>
    intro j hj hsum
    have hpos : 0 < t.size := by omega
    have hidx : (initial + j) % t.size < t.slots.length := Nat.mod_lt _ hpos
    cases hsom : t.slots[(initial + j) % t.size]? with
    | none =>
      exfalso
      have := List.getElem?_eq_none_iff.mp hsom
      have : t.slots.length ≤ (initial + j) % t.size := this
      omega
    | some s =>
      cases s with
      | empty =>
        refine ⟨by simp [putAux, hsom], ?_⟩
        constructor
        · intro h
          simp [putAux, hsom] at h
        · intro hall
          exfalso
          obtain ⟨k', v', heq, hne⟩ := hall j le_rfl hj
          rw [hsom] at heq
          simp at heq
      | deleted =>
        refine ⟨by simp [putAux, hsom], ?_⟩
        constructor
        · intro h
          simp [putAux, hsom] at h
        · intro hall
          exfalso
          obtain ⟨k', v', heq, hne⟩ := hall j le_rfl hj
          rw [hsom] at heq
          simp at heq
      | occupied k v =>
        by_cases hk : k = key
        · refine ⟨by simp [putAux, hsom, hk], ?_⟩
          constructor
          · intro h
            simp [putAux, hsom, hk] at h
          · intro hall
            exfalso
            obtain ⟨k', v', heq, hne⟩ := hall j le_rfl hj
            rw [hsom] at heq
            simp only [Option.some.injEq, Slot.occupied.injEq] at heq
            exact hne (heq.1 ▸ hk)
        · by_cases hj1 : j + 1 = t.size
          · have hcond : ((initial + j) % t.size + 1) % t.size = initial :=
              (probe_back _ _ _ hin hj).mpr hj1
            refine ⟨by simp [putAux, hsom, hk, hcond], ?_⟩
            constructor
            · intro _ i hji hi
              have : i = j := by omega
              subst this
              exact ⟨k, v, hsom, hk⟩
            · intro _
              simp [putAux, hsom, hk, hcond]
          · have hcond : ¬ (((initial + j) % t.size + 1) % t.size = initial) := by
              intro hcon
              exact hj1 ((probe_back _ _ _ hin hj).mp hcon)
            have hstep : ((initial + j) % t.size + 1) % t.size = (initial + (j + 1)) % t.size :=
              probe_step _ _ _
            have hcond2 : ¬ ((initial + (j + 1)) % t.size = initial) := by
              rw [← hstep]; exact hcond
            have hrec : putAux t key value initial ((initial + j) % t.size) (fuel + 1) =
                putAux t key value initial ((initial + (j + 1)) % t.size) fuel := by
              simp [putAux, hsom, hk, hstep, hcond2]
            obtain ⟨ih1, ih2⟩ := ih (j + 1) (by omega) (by omega)
            refine ⟨by rw [hrec]; exact ih1, ?_⟩
            rw [hrec, ih2]
            constructor
            · intro hall i hji hi
              by_cases hij : i = j
              · subst hij
                exact ⟨k, v, hsom, hk⟩
              · exact hall i (by omega) hi
            · intro hall i hji hi
              exact hall i (by omega) hi

/-- An index with a defined slot is within the array bounds. -/
theorem lt_length_of_some {α : Type} {l : List α} {i : Nat} {a : α}
    (h : l[i]? = some a) : i < l.length := by
  by_contra hc
  rw [List.getElem?_eq_none_iff.mpr (by omega)] at h
  cases h

/-- Structure of a successful `put`: exactly one slot is overwritten with the
new pair; that slot previously held `_empty`, `_deleted` (then `_len` grows by
one) or the same key (then `_len` is unchanged). -/
theorem putAux_writes {V : Type} (t : Table V) (key : Nat) (value : V) (initial : Nat) :
    ∀ fuel h t', putAux t key value initial h fuel = some (some t') →
      ∃ w, w < t.slots.length ∧ t'.slots = t.slots.set w (Slot.occupied key value) ∧
        (((t.slots[w]? = some Slot.empty ∨ t.slots[w]? = some Slot.deleted) ∧
            t'.len = t.len + 1) ∨
         ((∃ v₀, t.slots[w]? = some (Slot.occupied key v₀)) ∧ t'.len = t.len)) := by
  intro fuel
  induction fuel with
  | zero => intro h t' hput; simp [putAux] at hput
  | succ fuel ih =>
    intro h t' hput
    cases hsom : t.slots[h]? with
    | none => simp [putAux, hsom] at hput
    | some s =>
      cases s with
      | empty =>
        simp only [putAux, hsom, Option.some.injEq] at hput
        exact ⟨h, lt_length_of_some hsom, by rw [← hput], Or.inl ⟨Or.inl hsom, by rw [← hput]⟩⟩
      | deleted =>
        simp only [putAux, hsom, Option.some.injEq] at hput
        exact ⟨h, lt_length_of_some hsom, by rw [← hput], Or.inl ⟨Or.inr hsom, by rw [← hput]⟩⟩
      | occupied k v =>
        by_cases hk : k = key
        · subst hk
          simp only [putAux, hsom, eq_self_iff_true, if_true, ite_true,
            Option.some.injEq] at hput
          exact ⟨h, lt_length_of_some hsom, by rw [← hput],
            Or.inr ⟨⟨v, hsom⟩, by rw [← hput]⟩⟩
        · by_cases hc : (h + 1) % t.size = initial
          · simp [putAux, hsom, hk, hc] at hput
          · simp only [putAux, hsom, hk, if_false, ite_false, if_neg hc] at hput
            exact ih _ _ hput

/-- Round trip at loop level: if the `put` loop starting at probe position `h`
succeeds, then the `get` loop on the resulting table, from the same start,
finds the inserted value; moreover slots occupied by foreign keys are
untouched and the array length is preserved. -/
theorem putAux_get {V : Type} (t : Table V) (key : Nat) (value : V) (initial : Nat) :
    ∀ fuel h t', putAux t key value initial h fuel = some (some t') →
      getAux t' key initial h fuel = some (some value) ∧
      t'.slots.length = t.slots.length ∧
      (∀ (i k' : Nat) (v' : V), k' ≠ key → t.slots[i]? = some (Slot.occupied k' v') →
        t'.slots[i]? = some (Slot.occupied k' v')) := by
  intro fuel
  induction fuel with
  | zero => intro h t' hput; simp [putAux] at hput
  | succ fuel ih =>
    intro h t' hput
    cases hsom : t.slots[h]? with
    | none => simp [putAux, hsom] at hput
    | some s =>
      have hwrite : ∀ u : Table V,
          (s = Slot.empty ∨ s = Slot.deleted ∨ ∃ v₀, s = Slot.occupied key v₀) →
          u.slots = t.slots.set h (Slot.occupied key value) →
          getAux u key initial h (fuel + 1) = some (some value) ∧
          u.slots.length = t.slots.length ∧
          (∀ (i k' : Nat) (v' : V), k' ≠ key → t.slots[i]? = some (Slot.occupied k' v') →
            u.slots[i]? = some (Slot.occupied k' v')) := by
        intro u hsgood hu
        have hlen : u.slots.length = t.slots.length := by rw [hu, List.length_set]
        have hat : u.slots[h]? = some (Slot.occupied key value) := by
          rw [hu]
          exact List.getElem?_set_self (lt_length_of_some hsom)
        refine ⟨by simp [getAux, hat], hlen, ?_⟩
        intro i k' v' hne hold
        by_cases hih : i = h
        · subst hih
          rw [hold] at hsom
          simp only [Option.some.injEq] at hsom
          exfalso
          rcases hsgood with hse | hse | ⟨v₀, hse⟩ <;> rw [hse] at hsom
          · cases hsom
          · cases hsom
          · exact hne (Slot.occupied.inj hsom).1
        · rw [hu, List.getElem?_set_ne (fun hcon => hih hcon.symm), hold]
      cases s with
      | empty =>
        simp only [putAux, hsom, Option.some.injEq] at hput
        exact hwrite t' (Or.inl rfl) (by rw [← hput])
      | deleted =>
        simp only [putAux, hsom, Option.some.injEq] at hput
        exact hwrite t' (Or.inr (Or.inl rfl)) (by rw [← hput])
      | occupied k v =>
        by_cases hk : k = key
        · subst hk
          simp only [putAux, hsom, eq_self_iff_true, if_true, ite_true,
            Option.some.injEq] at hput
          exact hwrite t' (Or.inr (Or.inr ⟨v, rfl⟩)) (by rw [← hput])
        · by_cases hc : (h + 1) % t.size = initial
          · simp [putAux, hsom, hk, hc] at hput
          · simp only [putAux, hsom, hk, if_false, ite_false, if_neg hc] at hput
            obtain ⟨ihget, ihlen, ihpres⟩ := ih _ _ hput
            have hat : t'.slots[h]? = some (Slot.occupied k v) := ihpres h k v hk hsom
            have hsz : t'.size = t.size := ihlen
            refine ⟨?_, ihlen, ihpres⟩
            have hunf : getAux t' key initial h (fuel + 1) =
                if (h + 1) % t'.size = initial then some none
                else getAux t' key initial ((h + 1) % t'.size) fuel := by
              simp [getAux, hat, hk]
            rw [hunf, hsz, if_neg hc]
            exact ihget

/-- Round trip: if `put` succeeds, `get` of the same key on the resulting
table returns the value just stored. -/
theorem put_get {V : Type} (t : Table V) (key : Nat) (value : V) (t' : Table V)
    (h : put t key value = some t') : get t' key = some value := by
  have haux : putAux t key value (key % t.size) (key % t.size) t.size = some (some t') := by
    unfold put at h
    cases hx : putAux t key value (key % t.size) (key % t.size) t.size with
    | none => rw [hx] at h; cases h
    | some r =>
      simp only [hx] at h
      rw [h]
  obtain ⟨hget, hlen, -⟩ := putAux_get t key value (key % t.size) t.size (key % t.size) t' haux
  have hsz : t'.size = t.size := hlen
  unfold get
  rw [hsz, hget]

/-- `put` preserves the slot-array length. -/
theorem put_length {V : Type} (t : Table V) (key : Nat) (value : V) (t' : Table V)
    (h : put t key value = some t') : t'.slots.length = t.slots.length := by
  have haux : putAux t key value (key % t.size) (key % t.size) t.size = some (some t') := by
    unfold put at h
    cases hx : putAux t key value (key % t.size) (key % t.size) t.size with
    | none => rw [hx] at h; cases h
    | some r =>
      simp only [hx] at h
      rw [h]
  exact (putAux_get t key value (key % t.size) t.size (key % t.size) t' haux).2.1

/-- `put` raises `TableFull` exactly when all `size` probe positions of the
cycle starting at the home slot are occupied by foreign keys. -/
theorem put_full_iff {V : Type} (t : Table V) (key : Nat) (value : V) (hpos : 0 < t.size) :
    put t key value = none ↔
      ∀ j, j < t.size → occOther t key ((key % t.size + j) % t.size) := by
  have hin : key % t.size < t.size := Nat.mod_lt _ hpos
  obtain ⟨hne, hiff⟩ := putAux_probe t key value (key % t.size) hin t.size 0 hpos (by omega)
  have h0 : (key % t.size + 0) % t.size = key % t.size := by
    rw [Nat.add_zero, Nat.mod_eq_of_lt hin]
  rw [h0] at hne hiff
  unfold put
  cases hx : putAux t key value (key % t.size) (key % t.size) t.size with
  | none => exact absurd hx hne
  | some r =>
    cases r with
    | none =>
      simp only []
      constructor
      · intro _ j hj
        exact (hiff.mp hx) j (Nat.zero_le j) hj
      · intro _; trivial
    | some t'' =>
      simp only []
      constructor
      · intro hcon; cases hcon
      · intro hall
        exfalso
        have hfull := hiff.mpr (fun i _ hi => hall i hi)
        rw [hx] at hfull
        cases hfull

/-- Linear probing visits every slot: any index below `n` is reached by some
probe offset below `n`. -/
theorem exists_probe_of_lt (n h i : Nat) (hh : h < n) (hi : i < n) :
    ∃ j, j < n ∧ (h + j) % n = i := by
  refine ⟨(n + i - h) % n, Nat.mod_lt _ (by omega), ?_⟩
  have h1 : (h + (n + i - h) % n) % n = (h + (n + i - h)) % n := by
    conv_lhs => rw [Nat.add_comm]
    rw [Nat.mod_add_mod, Nat.add_comm]
  rw [h1]
  have h2 : h + (n + i - h) = n + i := by omega
  rw [h2, Nat.add_mod_left, Nat.mod_eq_of_lt hi]

/-- `put` succeeds as soon as one slot of the table is not occupied by a
foreign key (in particular when an `_empty` or `_deleted` slot exists). -/
theorem put_isSome_of_nonfull {V : Type} (t : Table V) (key : Nat) (value : V)
    (hpos : 0 < t.size) (i : Nat) (hi : i < t.size) (hnon : ¬ occOther t key i) :
    ∃ t', put t key value = some t' := by
  cases hx : put t key value with
  | none =>
    exfalso
    have hall := (put_full_iff t key value hpos).mp hx
    obtain ⟨j, hj, hji⟩ := exists_probe_of_lt t.size (key % t.size) i
      (Nat.mod_lt _ hpos) hi
    exact hnon (hji ▸ hall j hj)
  | some t' => exact ⟨t', rfl⟩

/-- The `get` probe loop never exhausts its fuel within one cycle: starting
at the `j`-th probe position with `size - j` fuel it always returns. -/
theorem getAux_probe_ne {V : Type} (t : Table V) (key : Nat) (initial : Nat)
    (hin : initial < t.size) :
    ∀ fuel j, j < t.size → j + fuel = t.size →
      getAux t key initial ((initial + j) % t.size) fuel ≠ none := by
  intro fuel
  induction fuel with
  | zero => intro j hj hsum; omega
  | succ fuel ih =>
    intro j hj hsum
    have hpos : 0 < t.size := by omega
    have hidx : (initial + j) % t.size < t.slots.length := Nat.mod_lt _ hpos
    cases hsom : t.slots[(initial + j) % t.size]? with
    | none =>
      exfalso
      have := List.getElem?_eq_none_iff.mp hsom
      omega
    | some s =>
      have hstepcase :
          (if ((initial + j) % t.size + 1) % t.size = initial then (some none : Option (Option V))
            else getAux t key initial (((initial + j) % t.size + 1) % t.size) fuel) ≠ none := by
        by_cases hj1 : j + 1 = t.size
        · rw [if_pos ((probe_back _ _ _ hin hj).mpr hj1)]
          simp
        · rw [if_neg (fun hcon => hj1 ((probe_back _ _ _ hin hj).mp hcon)), probe_step]
          exact ih (j + 1) (by omega) (by omega)
      cases s with
      | empty => simp [getAux, hsom]
      | deleted =>
        simpa [getAux, hsom] using hstepcase
      | occupied k v =>
        by_cases hk : k = key
        · simp [getAux, hsom, hk]
        · simpa [getAux, hsom, hk] using hstepcase

/-- The `del_` probe loop never exhausts its fuel within one cycle. -/
theorem delAux_probe_ne {V : Type} (t : Table V) (key : Nat) (initial : Nat)
    (hin : initial < t.size) :
    ∀ fuel j, j < t.size → j + fuel = t.size →
      delAux t key initial ((initial + j) % t.size) fuel ≠ none := by
  intro fuel
  induction fuel with
  | zero => intro j hj hsum; omega
  | succ fuel ih =>
    intro j hj hsum
    have hpos : 0 < t.size := by omega
    have hidx : (initial + j) % t.size < t.slots.length := Nat.mod_lt _ hpos
    cases hsom : t.slots[(initial + j) % t.size]? with
    | none =>
      exfalso
      have := List.getElem?_eq_none_iff.mp hsom
      omega
    | some s =>
      have hstepcase :
          (if ((initial + j) % t.size + 1) % t.size = initial
              then (some (t, PyRet.pyNone) : Option (Table V × PyRet))
            else delAux t key initial (((initial + j) % t.size + 1) % t.size) fuel) ≠ none := by
        by_cases hj1 : j + 1 = t.size
        · rw [if_pos ((probe_back _ _ _ hin hj).mpr hj1)]
          simp
        · rw [if_neg (fun hcon => hj1 ((probe_back _ _ _ hin hj).mp hcon)), probe_step]
          exact ih (j + 1) (by omega) (by omega)
      cases s with
      | empty => simp [delAux, hsom]
      | deleted =>
        simpa [delAux, hsom] using hstepcase
      | occupied k v =>
        by_cases hk : k = key
        · simp [delAux, hsom, hk]
        · simpa [delAux, hsom, hk] using hstepcase

/-- Structure of `del_`: the Python return value is always `None`, and the
table is either unchanged (key absent or cycle complete) or has exactly the
key's slot tombstoned with `_len` decremented. -/
theorem delAux_writes {V : Type} (t : Table V) (key : Nat) (initial : Nat) :
    ∀ fuel h t' r, delAux t key initial h fuel = some (t', r) →
      r = PyRet.pyNone ∧
      (t' = t ∨ ∃ w v₀, w < t.slots.length ∧ t.slots[w]? = some (Slot.occupied key v₀) ∧
        t'.slots = t.slots.set w Slot.deleted ∧ t'.len = t.len - 1) := by
  intro fuel
  induction fuel with
  | zero => intro h t' r hdel; simp [delAux] at hdel
  | succ fuel ih =>
    intro h t' r hdel
    cases hsom : t.slots[h]? with
    | none => simp [delAux, hsom] at hdel
    | some s =>
      cases s with
      | empty =>
        simp only [delAux, hsom, Option.some.injEq, Prod.mk.injEq] at hdel
        exact ⟨hdel.2.symm, Or.inl hdel.1.symm⟩
      | deleted =>
        by_cases hc : (h + 1) % t.size = initial
        · simp only [delAux, hsom, if_pos hc, Option.some.injEq, Prod.mk.injEq] at hdel
          exact ⟨hdel.2.symm, Or.inl hdel.1.symm⟩
        · simp only [delAux, hsom, if_neg hc] at hdel
          exact ih _ _ _ hdel
      | occupied k v =>
        by_cases hk : k = key
        · subst hk
          simp only [delAux, hsom, eq_self_iff_true, if_true, ite_true,
            Option.some.injEq, Prod.mk.injEq] at hdel
          refine ⟨hdel.2.symm, Or.inr ⟨h, v, lt_length_of_some hsom, hsom, ?_, ?_⟩⟩
          · rw [← hdel.1]
          · rw [← hdel.1]
        · by_cases hc : (h + 1) % t.size = initial
          · simp only [delAux, hsom, hk, if_false, ite_false, if_pos hc,
              Option.some.injEq, Prod.mk.injEq] at hdel
            exact ⟨hdel.2.symm, Or.inl hdel.1.symm⟩
          · simp only [delAux, hsom, hk, if_false, ite_false, if_neg hc] at hdel
            exact ih _ _ _ hdel

/-- `del_` always returns Python `None` and the table shape it leaves behind
is as described by `delAux_writes`. -/
theorem del_ret {V : Type} (t : Table V) (key : Nat) : (del t key).2 = PyRet.pyNone := by
  unfold del
  cases hx : delAux t key (key % t.size) (key % t.size) t.size with
  | none => rfl
  | some pr =>
    obtain ⟨t', r⟩ := pr
    exact (delAux_writes t key (key % t.size) t.size _ _ _ hx).1

/-- `del_` and `get` perform the same traversal: when `get` finds the key,
`del_` tombstones it and decrements `_len`; when `get` misses (empty slot or
full cycle), `del_` leaves the table untouched. -/
theorem delAux_vs_getAux {V : Type} (t : Table V) (key : Nat) (initial : Nat) :
    ∀ fuel h,
      (∀ v, getAux t key initial h fuel = some (some v) →
        ∃ t', delAux t key initial h fuel = some (t', PyRet.pyNone) ∧
          t'.len = t.len - 1) ∧
      (getAux t key initial h fuel = some none →
        delAux t key initial h fuel = some (t, PyRet.pyNone)) ∧
      (getAux t key initial h fuel = none → delAux t key initial h fuel = none) := by
  intro fuel
  induction fuel with
  | zero =>
    intro h
    refine ⟨?_, ?_, ?_⟩
    · intro v hv; simp [getAux] at hv
    · intro hv; simp [getAux] at hv
    · intro _; simp [delAux]
  | succ fuel ih =>
    intro h
    cases hsom : t.slots[h]? with
    | none =>
      refine ⟨?_, ?_, ?_⟩
      · intro v hv; simp [getAux, hsom] at hv
      · intro hv; simp [getAux, hsom] at hv
      · intro _; simp [delAux, hsom]
    | some s =>
      cases s with
      | empty =>
        refine ⟨?_, ?_, ?_⟩
        · intro v hv; simp [getAux, hsom] at hv
        · intro _; simp [delAux, hsom]
        · intro hv; simp [getAux, hsom] at hv
      | deleted =>
        by_cases hc : (h + 1) % t.size = initial
        · refine ⟨?_, ?_, ?_⟩
          · intro v hv; simp [getAux, hsom, hc] at hv
          · intro _; simp [delAux, hsom, hc]
          · intro hv; simp [getAux, hsom, hc] at hv
        · obtain ⟨ih1, ih2, ih3⟩ := ih ((h + 1) % t.size)
          refine ⟨?_, ?_, ?_⟩
          · intro v hv
            simp only [getAux, hsom, if_neg hc] at hv
            obtain ⟨t', hdel, hlen⟩ := ih1 v hv
            exact ⟨t', by simpa [delAux, hsom, hc] using hdel, hlen⟩
          · intro hv
            simp only [getAux, hsom, if_neg hc] at hv
            simpa [delAux, hsom, hc] using ih2 hv
          · intro hv
            simp only [getAux, hsom, if_neg hc] at hv
            simpa [delAux, hsom, hc] using ih3 hv
      | occupied k v₀ =>
        by_cases hk : k = key
        · subst hk
          refine ⟨?_, ?_, ?_⟩
          · intro v hv
            simp only [getAux, hsom, eq_self_iff_true, if_true, ite_true,
              Option.some.injEq] at hv
            refine ⟨{ t with slots := t.slots.set h Slot.deleted, len := t.len - 1 },
              by simp [delAux, hsom], rfl⟩
          · intro hv
            simp [getAux, hsom] at hv
          · intro hv
            simp [getAux, hsom] at hv
        · by_cases hc : (h + 1) % t.size = initial
          · refine ⟨?_, ?_, ?_⟩
            · intro v hv; simp [getAux, hsom, hk, hc] at hv
            · intro _; simp [delAux, hsom, hk, hc]
            · intro hv; simp [getAux, hsom, hk, hc] at hv
          · obtain ⟨ih1, ih2, ih3⟩ := ih ((h + 1) % t.size)
            refine ⟨?_, ?_, ?_⟩
            · intro v hv
              simp only [getAux, hsom, hk, if_false, ite_false, if_neg hc] at hv
              obtain ⟨t', hdel, hlen⟩ := ih1 v hv
              exact ⟨t', by simpa [delAux, hsom, hk, hc] using hdel, hlen⟩
            · intro hv
              simp only [getAux, hsom, hk, if_false, ite_false, if_neg hc] at hv
              simpa [delAux, hsom, hk, hc] using ih2 hv
            · intro hv
              simp only [getAux, hsom, hk, if_false, ite_false, if_neg hc] at hv
              simpa [delAux, hsom, hk, hc] using ih3 hv

/-- Observable effect of `del_`: when the key is present (`get` finds it)
`_len` drops by one; when it is absent the table is unchanged. -/
theorem del_effects {V : Type} (t : Table V) (key : Nat) :
    ((get t key).isSome → (del t key).1.len = t.len - 1) ∧
    (get t key = none → (del t key).1 = t) := by
  obtain ⟨h1, h2, h3⟩ := delAux_vs_getAux t key (key % t.size) t.size (key % t.size)
  unfold get del
  cases hx : getAux t key (key % t.size) (key % t.size) t.size with
  | none =>
    refine ⟨?_, ?_⟩
    · intro hcon; simp at hcon
    · intro _
      rw [h3 hx]
  | some r =>
    cases r with
    | none =>
      refine ⟨?_, ?_⟩
      · intro hcon; simp at hcon
      · intro _
        rw [h2 hx]
    | some v =>
      refine ⟨?_, ?_⟩
      · intro _
        obtain ⟨t', hdel, hlen⟩ := h1 v hx
        rw [hdel]
        exact hlen
      · intro hcon; cases hcon

/-- A successful `get` is preserved when one slot is overwritten, provided
the new slot content is neither `_empty` nor an occupied slot for the probed
key, and the overwritten slot did not hold the probed key.  This covers both
a `put` of a different key (new content `occupied k' v'`, old content empty /
deleted / same foreign key) and a `del_` of a different key (new content
`_deleted`, old content that key's slot). -/
theorem getAux_set_pres {V : Type} (t t' : Table V) (w : Nat) (snew : Slot V) (key : Nat)
    (hw : t'.slots = t.slots.set w snew)
    (hnew1 : snew ≠ Slot.empty)
    (hnew2 : ∀ v', snew ≠ Slot.occupied key v')
    (hpre : ∀ v', t.slots[w]? ≠ some (Slot.occupied key v'))
    (initial : Nat) :
    ∀ fuel h v, getAux t key initial h fuel = some (some v) →
      getAux t' key initial h fuel = some (some v) := by
  have hsz : t'.size = t.size := by
    show t'.slots.length = t.slots.length
    rw [hw, List.length_set]
  intro fuel
  induction fuel with
  | zero => intro h v hv; simp [getAux] at hv
  | succ fuel ih =>
    intro h v hv
    cases hsom : t.slots[h]? with
    | none => simp [getAux, hsom] at hv
    | some s =>
      have hts : t'.slots[h]? = if h = w then some snew else some s := by
        by_cases hhw : h = w
        · subst hhw
          rw [if_pos rfl, hw]
          exact List.getElem?_set_self (lt_length_of_some hsom)
        · rw [if_neg hhw, hw, List.getElem?_set_ne (fun hcon => hhw hcon.symm), hsom]
      have hstep2 : ¬ ((h + 1) % t.size = initial) →
          getAux t' key initial ((h + 1) % t.size) fuel = some (some v) →
          s ≠ Slot.empty → (∀ v', s ≠ Slot.occupied key v') →
          getAux t' key initial h (fuel + 1) = some (some v) := by
        intro hc hrec hs1 hsk
        by_cases hhw : h = w
        · have hts' : t'.slots[h]? = some snew := by rw [hts, if_pos hhw]
          cases hsnew : snew with
          | empty => exact absurd hsnew hnew1
          | deleted =>
            rw [hsnew] at hts'
            simpa [getAux, hts', hsz, hc] using hrec
          | occupied k₂ v₂ =>
            have hk₂ : ¬ (k₂ = key) := by
              intro hcon
              exact hnew2 v₂ (by rw [hsnew, hcon])
            rw [hsnew] at hts'
            simpa [getAux, hts', hk₂, hsz, hc] using hrec
        · have hts' : t'.slots[h]? = some s := by rw [hts, if_neg hhw]
          cases hscase : s with
          | empty => exact absurd hscase hs1
          | deleted =>
            rw [hscase] at hts'
            simpa [getAux, hts', hsz, hc] using hrec
          | occupied k₂ v₂ =>
            have hk₂ : ¬ (k₂ = key) := by
              intro hcon
              exact hsk v₂ (by rw [hscase, hcon])
            rw [hscase] at hts'
            simpa [getAux, hts', hk₂, hsz, hc] using hrec
      cases s with
      | empty => simp [getAux, hsom] at hv
      | deleted =>
        by_cases hc : (h + 1) % t.size = initial
        · simp [getAux, hsom, hc] at hv
        · simp only [getAux, hsom, if_neg hc] at hv
          exact hstep2 hc (ih _ v hv) (fun hcon => Slot.noConfusion hcon)
            (fun v' hcon => Slot.noConfusion hcon)
      | occupied k v'' =>
        by_cases hk : k = key
        · subst hk
          simp only [getAux, hsom, eq_self_iff_true, if_true, ite_true,
            Option.some.injEq] at hv
          have hhw : h ≠ w := fun hcon => hpre v'' (hcon ▸ hsom)
          have hts' : t'.slots[h]? = some (Slot.occupied k v'') := by
            rw [hts, if_neg hhw]
          simp [getAux, hts', hv]
        · by_cases hc : (h + 1) % t.size = initial
          · simp [getAux, hsom, hk, hc] at hv
          · simp only [getAux, hsom, hk, if_false, ite_false, if_neg hc] at hv
            exact hstep2 hc (ih _ v hv) (fun hcon => Slot.noConfusion hcon)
              (fun v' hcon => hk (Slot.occupied.inj hcon).1)

/-- Helper: a successful `put` at wrapper level comes from a successful run
of the loop. -/
theorem put_eq_aux {V : Type} (t : Table V) (key : Nat) (value : V) (t' : Table V)
    (h : put t key value = some t') :
    putAux t key value (key % t.size) (key % t.size) t.size = some (some t') := by
  unfold put at h
  cases hx : putAux t key value (key % t.size) (key % t.size) t.size with
  | none => rw [hx] at h; cases h
  | some r =>
    simp only [hx] at h
    rw [h]

/-- Helper: a successful `get` at wrapper level comes from a successful run
of the loop. -/
theorem get_eq_aux {V : Type} (t : Table V) (key : Nat) (v : V)
    (h : get t key = some v) :
    getAux t key (key % t.size) (key % t.size) t.size = some (some v) := by
  unfold get at h
  cases hx : getAux t key (key % t.size) (key % t.size) t.size with
  | none => rw [hx] at h; cases h
  | some r =>
    simp only [hx] at h
    rw [h]

/-- Inserting one key does not disturb a successful lookup of a different
key. -/
theorem get_pres_put {V : Type} (t : Table V) (pkey : Nat) (pval : V) (t' : Table V)
    (hput : put t pkey pval = some t') (key : Nat) (hk : key ≠ pkey) (v : V)
    (hv : get t key = some v) : get t' key = some v := by
  have haux := put_eq_aux t pkey pval t' hput
  obtain ⟨w, hwlt, hws, hwc⟩ := putAux_writes t pkey pval (pkey % t.size) t.size _ _ haux
  have hpre : ∀ v', t.slots[w]? ≠ some (Slot.occupied key v') := by
    intro v' hcon
    rcases hwc with ⟨hpre2 | hpre2, -⟩ | ⟨⟨v₀, hpre2⟩, -⟩ <;> rw [hpre2] at hcon
    · cases hcon
    · cases hcon
    · exact hk (Slot.occupied.inj (Option.some.inj hcon)).1.symm
  have hres := getAux_set_pres t t' w (Slot.occupied pkey pval) key hws
    (fun hcon => Slot.noConfusion hcon)
    (fun v' hcon => hk ((Slot.occupied.inj hcon).1.symm))
    hpre (key % t.size) t.size (key % t.size) v (get_eq_aux t key v hv)
  have hszeq : t'.size = t.size := by
    show t'.slots.length = t.slots.length
    rw [hws, List.length_set]
  unfold get
  rw [hszeq, hres]

/-- Deleting one key does not disturb a successful lookup of a different
key: the tombstone keeps the probe chain intact. -/
theorem get_pres_del {V : Type} (t : Table V) (dkey : Nat)
    (key : Nat) (hk : key ≠ dkey) (v : V)
    (hv : get t key = some v) : get (del t dkey).1 key = some v := by
  unfold del
  cases hx : delAux t dkey (dkey % t.size) (dkey % t.size) t.size with
  | none => exact hv
  | some pr =>
    obtain ⟨t', r⟩ := pr
    obtain ⟨-, hcase⟩ := delAux_writes t dkey (dkey % t.size) t.size _ _ _ hx
    rcases hcase with rfl | ⟨w, v₀, hwlt, hwslot, hws, -⟩
    · exact hv
    · have hpre : ∀ v', t.slots[w]? ≠ some (Slot.occupied key v') := by
        intro v' hcon
        rw [hwslot] at hcon
        exact hk (Slot.occupied.inj (Option.some.inj hcon)).1.symm
      have hres := getAux_set_pres t t' w Slot.deleted key hws
        (fun hcon => Slot.noConfusion hcon)
        (fun v' hcon => Slot.noConfusion hcon)
        hpre (key % t.size) t.size (key % t.size) v (get_eq_aux t key v hv)
      have hszeq : t'.size = t.size := by
        show t'.slots.length = t.slots.length
        rw [hws, List.length_set]
      unfold get
      rw [hszeq, hres]

/-- If no slot holds the key, `get` returns `None`. -/
theorem get_none_of_no_slot {V : Type} (t : Table V) (key : Nat)
    (habs : ∀ (i : Nat) (v₀ : V), t.slots[i]? ≠ some (Slot.occupied key v₀)) :
    get t key = none := by
  have haux : ∀ fuel h, getAux t key (key % t.size) h fuel = some none ∨
      getAux t key (key % t.size) h fuel = none := by
    intro fuel
    induction fuel with
    | zero => intro h; exact Or.inr rfl
    | succ fuel ih =>
      intro h
      cases hsom : t.slots[h]? with
      | none => exact Or.inr (by simp [getAux, hsom])
      | some s =>
        cases s with
        | empty => exact Or.inl (by simp [getAux, hsom])
        | deleted =>
          by_cases hc : (h + 1) % t.size = key % t.size
          · exact Or.inl (by simp [getAux, hsom, hc])
          · rcases ih ((h + 1) % t.size) with hr | hr
            · exact Or.inl (by simpa [getAux, hsom, hc] using hr)
            · exact Or.inr (by simpa [getAux, hsom, hc] using hr)
        | occupied k v =>
          have hk : ¬ (k = key) := by
            intro hcon
            exact habs h v (by rw [hsom, hcon])
          by_cases hc : (h + 1) % t.size = key % t.size
          · exact Or.inl (by simp [getAux, hsom, hk, hc])
          · rcases ih ((h + 1) % t.size) with hr | hr
            · exact Or.inl (by simpa [getAux, hsom, hk, hc] using hr)
            · exact Or.inr (by simpa [getAux, hsom, hk, hc] using hr)
  unfold get
  rcases haux t.size (key % t.size) with h | h <;> rw [h]

/-- A successful `get` exhibits a slot that holds the key with the returned
value. -/
theorem get_some_slot {V : Type} (t : Table V) (key : Nat) (v : V)
    (h : get t key = some v) :
    ∃ i, i < t.slots.length ∧ t.slots[i]? = some (Slot.occupied key v) := by
  have haux : ∀ fuel h₀, getAux t key (key % t.size) h₀ fuel = some (some v) →
      ∃ i, i < t.slots.length ∧ t.slots[i]? = some (Slot.occupied key v) := by
    intro fuel
    induction fuel with
    | zero => intro h₀ hx; simp [getAux] at hx
    | succ fuel ih =>
      intro h₀ hx
      cases hsom : t.slots[h₀]? with
      | none => simp [getAux, hsom] at hx
      | some s =>
        cases s with
        | empty => simp [getAux, hsom] at hx
        | deleted =>
          by_cases hc : (h₀ + 1) % t.size = key % t.size
          · simp [getAux, hsom, hc] at hx
          · simp only [getAux, hsom, if_neg hc] at hx
            exact ih _ hx
        | occupied k v₀ =>
          by_cases hk : k = key
          · subst hk
            simp only [getAux, hsom, eq_self_iff_true, if_true, ite_true,
              Option.some.injEq] at hx
            exact ⟨h₀, lt_length_of_some hsom, by rw [hsom, hx]⟩
          · by_cases hc : (h₀ + 1) % t.size = key % t.size
            · simp [getAux, hsom, hk, hc] at hx
            · simp only [getAux, hsom, hk, if_false, ite_false, if_neg hc] at hx
              exact ih _ hx
  exact haux t.size (key % t.size) (get_eq_aux t key v h)

theorem countP_set_of_same {α : Type} (p : α → Bool) :
    ∀ (l : List α) (i : Nat) (a b : α), l[i]? = some b → p a = p b →
      (l.set i a).countP p = l.countP p := by
  intro l
  induction l with
  | nil => intro i a b hb; simp at hb
  | cons c rest ih =>
    intro i a b hb hpab
    cases i with
    | zero =>
      rw [List.getElem?_cons_zero, Option.some.injEq] at hb
      subst hb
      simp [List.countP_cons, hpab]
    | succ i =>
      rw [List.getElem?_cons_succ] at hb
      simp [List.countP_cons, ih i a b hb hpab]

theorem countP_set_incr {α : Type} (p : α → Bool) :
    ∀ (l : List α) (i : Nat) (a b : α), l[i]? = some b → p b = false → p a = true →
      (l.set i a).countP p = l.countP p + 1 := by
  intro l
  induction l with
  | nil => intro i a b hb; simp at hb
  | cons c rest ih =>
    intro i a b hb hpb hpa
    cases i with
    | zero =>
      rw [List.getElem?_cons_zero, Option.some.injEq] at hb
      subst hb
      simp [List.countP_cons, hpa, hpb]
    | succ i =>
      rw [List.getElem?_cons_succ] at hb
      simp only [List.set_cons_succ, List.countP_cons, ih i a b hb hpb hpa]
      omega

theorem countP_lt_exists {α : Type} (p : α → Bool) (l : List α)
    (h : l.countP p < l.length) : ∃ (i : Nat) (a : α), l[i]? = some a ∧ p a = false := by
  by_contra hno
  push_neg at hno
  have hall : ∀ a ∈ l, p a := by
    intro a ha
    obtain ⟨i, hi⟩ := List.getElem?_of_mem ha
    have := hno i a hi
    simpa using this
  rw [List.countP_eq_length.mpr hall] at h
  omega

theorem occCount_mk (V : Type) (n : Nat) : occCount (mkTable V n) = 0 := by
  unfold occCount mkTable
  induction n with
  | zero => rfl
  | succ n ih => simp [List.replicate_succ, List.countP_cons, isOcc, ih]

/-- `put` succeeds whenever at least one slot is not occupied. -/
theorem put_some_of_occCount_lt {V : Type} (t : Table V) (key : Nat) (value : V)
    (h : occCount t < t.slots.length) : ∃ t', put t key value = some t' := by
  obtain ⟨i, a, hia, hpa⟩ := countP_lt_exists isOcc t.slots h
  have hpos : 0 < t.size := by
    have := lt_length_of_some hia
    show 0 < t.slots.length
    omega
  refine put_isSome_of_nonfull t key value hpos i (lt_length_of_some hia) ?_
  rintro ⟨k', v', heq, -⟩
  rw [heq, Option.some.injEq] at hia
  rw [← hia] at hpa
  simp [isOcc] at hpa

/-- Combined effects of a `put` of a key no slot currently holds: `_len` and
the occupied count grow by one, the new table's slots are the old ones except
for the single freshly written cell, and slots of foreign keys are exactly
those of the old table. -/
theorem put_fresh_effects {V : Type} (t : Table V) (key : Nat) (value : V) (t' : Table V)
    (hput : put t key value = some t')
    (hfresh : ∀ (i : Nat) (v₀ : V), t.slots[i]? ≠ some (Slot.occupied key v₀)) :
    t'.len = t.len + 1 ∧ occCount t' = occCount t + 1 ∧
    (∀ (i : Nat) (s : Slot V), t'.slots[i]? = some s →
      (s = Slot.occupied key value ∨ t.slots[i]? = some s)) := by
  obtain ⟨w, hwlt, hws, hwc⟩ :=
    putAux_writes t key value (key % t.size) t.size _ _ (put_eq_aux t key value t' hput)
  have hwout : t.slots[w]? = some Slot.empty ∨ t.slots[w]? = some Slot.deleted := by
    rcases hwc with ⟨hc, -⟩ | ⟨⟨v₀, hc⟩, -⟩
    · exact hc
    · exact absurd hc (hfresh w v₀)
  have hlen : t'.len = t.len + 1 := by
    rcases hwc with ⟨-, hl⟩ | ⟨⟨v₀, hc⟩, -⟩
    · exact hl
    · exact absurd hc (hfresh w v₀)
  refine ⟨hlen, ?_, ?_⟩
  · unfold occCount
    rw [hws]
    rcases hwout with hc | hc
    · exact countP_set_incr isOcc t.slots w _ _ hc rfl rfl
    · exact countP_set_incr isOcc t.slots w _ _ hc rfl rfl
  · intro i s hs
    by_cases hiw : i = w
    · subst hiw
      rw [hws, List.getElem?_set_self hwlt, Option.some.injEq] at hs
      exact Or.inl hs.symm
    · rw [hws, List.getElem?_set_ne (fun hcon => hiw hcon.symm)] at hs
      exact Or.inr hs

theorem occPairs_length {V : Type} (l : List (Slot V)) :
    (occPairs l).length = l.countP isOcc := by
  induction l with
  | nil => rfl
  | cons s rest ih =>
    cases s <;> simp [occPairs, List.countP_cons, isOcc] at ih ⊢ <;> omega

theorem mem_occPairs {V : Type} (l : List (Slot V)) (k : Nat) (v : V) :
    (k, v) ∈ occPairs l ↔ ∃ i : Nat, l[i]? = some (Slot.occupied k v) := by
  constructor
  · intro hmem
    obtain ⟨s, hs, hfs⟩ := List.mem_filterMap.mp hmem
    obtain ⟨i, hi⟩ := List.getElem?_of_mem hs
    cases s with
    | empty => cases hfs
    | deleted => cases hfs
    | occupied k₀ v₀ =>
      simp only [Option.some.injEq, Prod.mk.injEq] at hfs
      exact ⟨i, by rw [hi, hfs.1, hfs.2]⟩
  · rintro ⟨i, hi⟩
    refine List.mem_filterMap.mpr ⟨Slot.occupied k v, ?_, rfl⟩
    exact List.getElem?_mem hi

/-- If no key occupies two distinct slots, the keys of `occPairs` are
pairwise distinct. -/
theorem occPairs_keys_nodup {V : Type} :
    ∀ l : List (Slot V),
      (∀ (i j k : Nat) (v v' : V), l[i]? = some (Slot.occupied k v) →
        l[j]? = some (Slot.occupied k v') → i = j) →
      ((occPairs l).map Prod.fst).Nodup := by
  intro l
  induction l with
  | nil => intro _; simp [occPairs]
  | cons s rest ih =>
    intro hinj
    have hrest : ∀ (i j k : Nat) (v v' : V), rest[i]? = some (Slot.occupied k v) →
        rest[j]? = some (Slot.occupied k v') → i = j := by
      intro i j k v v' hi hj
      have := hinj (i + 1) (j + 1) k v v'
        (by rw [List.getElem?_cons_succ]; exact hi)
        (by rw [List.getElem?_cons_succ]; exact hj)
      omega
    cases s with
    | empty => simpa [occPairs] using ih hrest
    | deleted => simpa [occPairs] using ih hrest
    | occupied k v =>
      have hexp : occPairs (Slot.occupied k v :: rest) = (k, v) :: occPairs rest := rfl
      rw [hexp, List.map_cons]
      refine List.nodup_cons.mpr ⟨?_, ih hrest⟩
      intro hmem
      obtain ⟨p, hp, hpk⟩ := List.mem_map.mp hmem
      obtain ⟨pk, pv⟩ := p
      simp only at hpk
      obtain ⟨i, hi⟩ := (mem_occPairs rest pk pv).mp hp
      rw [hpk] at hi
      have h0 : (Slot.occupied k v :: rest)[0]? = some (Slot.occupied k v) :=
        List.getElem?_cons_zero
      have hsucc : (Slot.occupied k v :: rest)[i + 1]? = some (Slot.occupied k pv) := by
        rw [List.getElem?_cons_succ]; exact hi
      have := hinj 0 (i + 1) k v pv h0 hsucc
      omega

/-- A fresh table has no occupied slot. -/
theorem mk_no_occ {V : Type} (m i k : Nat) (v : V) :
    (mkTable V m).slots[i]? ≠ some (Slot.occupied k v) := by
  intro hcon
  unfold mkTable at hcon
  by_cases hi : i < m
  · rw [List.getElem?_replicate_of_lt hi] at hcon
    cases hcon
  · rw [List.getElem?_eq_none_iff.mpr (by simp; omega)] at hcon
    cases hcon

/-- A plain `put` of a fresh key preserves the core invariant and the
capacity. -/
theorem invCore_put {V : Type} {t : Table V} {assoc : List (Nat × V)}
    (hc : InvCore t assoc) (key : Nat) (value : V)
    (hfresh : key ∉ assoc.map Prod.fst)
    {t' : Table V} (hput : put t key value = some t') :
    InvCore t' (assoc ++ [(key, value)]) ∧ t'.slots.length = t.slots.length := by
  have hnoslot : ∀ (i : Nat) (v₀ : V), t.slots[i]? ≠ some (Slot.occupied key v₀) := by
    intro i v₀ hcon
    exact hfresh (List.mem_map.mpr ⟨(key, v₀), hc.occ_mem i key v₀ hcon, rfl⟩)
  obtain ⟨w, hwlt, hws, hwc⟩ :=
    putAux_writes t key value (key % t.size) t.size _ _ (put_eq_aux t key value t' hput)
  obtain ⟨hlen, hocc, -⟩ := put_fresh_effects t key value t' hput hnoslot
  have hlength : t'.slots.length = t.slots.length := by rw [hws, List.length_set]
  have hslotat : ∀ (i : Nat), t'.slots[i]? =
      if i = w then some (Slot.occupied key value) else t.slots[i]? := by
    intro i
    by_cases hiw : i = w
    · subst hiw
      rw [if_pos rfl, hws]
      exact List.getElem?_set_self hwlt
    · rw [if_neg hiw, hws, List.getElem?_set_ne (fun hcon => hiw hcon.symm)]
  refine ⟨⟨?_, ?_, ?_, ?_, ?_⟩, hlength⟩
  · rw [hlen, hc.len_eq]
    simp
  · rw [hocc, hc.occ_eq]
    simp
  · intro p hp
    rcases List.mem_append.mp hp with hp | hp
    · have hpk : p.1 ≠ key := by
        intro hcon
        exact hfresh (List.mem_map.mpr ⟨p, hp, hcon⟩)
      exact get_pres_put t key value t' hput p.1 hpk p.2 (hc.gets p hp)
    · rcases List.mem_singleton.mp hp with rfl
      exact put_get t key value t' hput
  · intro i k v hi
    rw [hslotat i] at hi
    by_cases hiw : i = w
    · rw [if_pos hiw, Option.some.injEq] at hi
      obtain ⟨rfl, rfl⟩ := Slot.occupied.inj hi.symm
      exact List.mem_append.mpr (Or.inr (List.mem_singleton.mpr rfl))
    · rw [if_neg hiw] at hi
      exact List.mem_append.mpr (Or.inl (hc.occ_mem i k v hi))
  · intro i j k v v' hi hj
    rw [hslotat i] at hi
    rw [hslotat j] at hj
    by_cases hiw : i = w <;> by_cases hjw : j = w
    · omega
    · rw [if_pos hiw, Option.some.injEq] at hi
      rw [if_neg hjw] at hj
      obtain ⟨rfl, -⟩ := Slot.occupied.inj hi.symm
      exact absurd hj (hnoslot j v')
    · rw [if_neg hiw] at hi
      rw [if_pos hjw, Option.some.injEq] at hj
      obtain ⟨rfl, -⟩ := Slot.occupied.inj hj.symm
      exact absurd hi (hnoslot i v)
    · rw [if_neg hiw] at hi
      rw [if_neg hjw] at hj
      exact hc.key_inj i j k v v' hi hj

theorem occPairs_cons_empty {V : Type} (rest : List (Slot V)) :
    occPairs (Slot.empty :: rest) = occPairs rest := rfl

theorem occPairs_cons_deleted {V : Type} (rest : List (Slot V)) :
    occPairs (Slot.deleted :: rest) = occPairs rest := rfl

theorem occPairs_cons_occ {V : Type} (k : Nat) (v : V) (rest : List (Slot V)) :
    occPairs (Slot.occupied k v :: rest) = (k, v) :: occPairs rest := rfl

theorem rputF_zero {V : Type} (t : Table V) (key : Nat) (value : V) :
    rputF 0 t key value = none := by
  rw [rputF.eq_def]

theorem rputF_succ {V : Type} (fuel : Nat) (t : Table V) (key : Nat) (value : V) :
    rputF (fuel + 1) t key value =
      match put t key value with
      | none => none
      | some t' =>
        if (((t'.size * 2) / 3 : Nat) : Int) ≤ t'.len then
          reinsertF fuel (mkTable V (t'.size * 2)) t'.slots
        else some t' := by
  rw [rputF.eq_def]

theorem reinsertF_nil {V : Type} (fuel : Nat) (u : Table V) :
    reinsertF fuel u [] = some u := by
  rw [reinsertF.eq_def]

theorem reinsertF_cons_empty {V : Type} (fuel : Nat) (u : Table V) (rest : List (Slot V)) :
    reinsertF fuel u (Slot.empty :: rest) = reinsertF fuel u rest := by
  rw [reinsertF.eq_def]

theorem reinsertF_cons_deleted {V : Type} (fuel : Nat) (u : Table V) (rest : List (Slot V)) :
    reinsertF fuel u (Slot.deleted :: rest) = reinsertF fuel u rest := by
  rw [reinsertF.eq_def]

theorem reinsertF_cons_occ {V : Type} (fuel : Nat) (u : Table V) (k : Nat) (v : V)
    (rest : List (Slot V)) :
    reinsertF fuel u (Slot.occupied k v :: rest) =
      match rputF fuel u k v with
      | none => none
      | some u' => reinsertF fuel u' rest := by
  rw [reinsertF.eq_def]

/-- The re-insert loop of `_resize` succeeds and extends the core invariant,
provided the total number of pairs stays strictly below the resize threshold
of the new table (so no nested resize fires) and all keys are distinct. -/
theorem reinsert_invCore {V : Type} :
    ∀ (l : List (Slot V)) (u : Table V) (done : List (Nat × V)) (fuel : Nat),
      1 ≤ fuel →
      InvCore u done →
      done.length + (occPairs l).length < (u.slots.length * 2) / 3 →
      ((done ++ occPairs l).map Prod.fst).Nodup →
      ∃ u', reinsertF fuel u l = some u' ∧ InvCore u' (done ++ occPairs l) ∧
        u'.slots.length = u.slots.length := by
  intro l
  induction l with
  | nil =>
    intro u done fuel hfuel hc hbound hnodup
    exact ⟨u, reinsertF_nil fuel u,
      by rw [show occPairs ([] : List (Slot V)) = [] from rfl, List.append_nil]; exact hc, rfl⟩
  | cons s rest ih =>
    intro u done fuel hfuel hc hbound hnodup
    cases s with
    | empty =>
      rw [occPairs_cons_empty] at hbound hnodup
      obtain ⟨u', h1, h2, h3⟩ := ih u done fuel hfuel hc hbound hnodup
      exact ⟨u', by rw [reinsertF_cons_empty]; exact h1, by rwa [occPairs_cons_empty], h3⟩
    | deleted =>
      rw [occPairs_cons_deleted] at hbound hnodup
      obtain ⟨u', h1, h2, h3⟩ := ih u done fuel hfuel hc hbound hnodup
      exact ⟨u', by rw [reinsertF_cons_deleted]; exact h1, by rwa [occPairs_cons_deleted], h3⟩
    | occupied k v =>
      obtain ⟨f, rfl⟩ : ∃ f, fuel = f + 1 := ⟨fuel - 1, by omega⟩
      rw [occPairs_cons_occ] at hbound hnodup
      have hblen : done.length + ((occPairs rest).length + 1) < (u.slots.length * 2) / 3 := by
        simpa [List.length_cons] using hbound
      have hocclt : occCount u < u.slots.length := by
        rw [hc.occ_eq]
        omega
      obtain ⟨u₁, hput⟩ := put_some_of_occCount_lt u k v hocclt
      have hfresh : k ∉ done.map Prod.fst := by
        intro hcon
        rw [List.map_append] at hnodup
        have hdisj := (List.nodup_append.mp hnodup).2.2
        exact hdisj hcon (by simp)
      obtain ⟨hc₁, hlen₁⟩ := invCore_put hc k v hfresh hput
      have hu₁size : u₁.size = u.slots.length := hlen₁
      have hnotrig : ¬ ((((u₁.size * 2) / 3 : Nat) : Int) ≤ u₁.len) := by
        rw [hc₁.len_eq, hu₁size, Int.not_le]
        have hnat : (done ++ [(k, v)]).length < (u.slots.length * 2) / 3 := by
          rw [List.length_append, List.length_singleton]
          omega
        exact_mod_cast hnat
      have hred : rputF (f + 1) u k v = some u₁ := by
        rw [rputF_succ, hput]
        simp only [hnotrig, if_false, ite_false]
      rw [reinsertF_cons_occ, hred]
      have hbound' : (done ++ [(k, v)]).length + (occPairs rest).length <
          (u₁.slots.length * 2) / 3 := by
        rw [List.length_append, List.length_singleton, hlen₁]
        omega
      have hnodup' : (((done ++ [(k, v)]) ++ occPairs rest).map Prod.fst).Nodup := by
        rw [List.append_assoc, List.singleton_append]
        exact hnodup
      obtain ⟨u', h1, h2, h3⟩ := ih u₁ (done ++ [(k, v)]) (f + 1) (by omega) hc₁ hbound' hnodup'
      refine ⟨u', h1, ?_, by rw [h3, hlen₁]⟩
      rw [occPairs_cons_occ, ← List.singleton_append, ← List.append_assoc]
      exact h2

/-- One `ResizableHashTable.put` of a fresh key: it succeeds (possibly after
a resize) and extends the invariant by the new pair. -/
theorem inv_rput {V : Type} {t : Table V} {assoc : List (Nat × V)}
    (hI : Inv t assoc) (key : Nat) (value : V)
    (hfresh : key ∉ assoc.map Prod.fst)
    (fuel : Nat) (hfuel : 2 ≤ fuel) :
    ∃ t', rputF fuel t key value = some t' ∧ Inv t' (assoc ++ [(key, value)]) := by
  obtain ⟨f, rfl⟩ : ∃ f, fuel = f + 1 := ⟨fuel - 1, by omega⟩
  have hc := hI.core
  have hs8 : 8 ≤ t.size := hI.size_min
  have hbel2 : (assoc.length : Int) < (((t.size * 2) / 3 : Nat) : Int) := by
    rw [← hc.len_eq]
    exact hI.below
  have hbelownat : assoc.length < (t.size * 2) / 3 := by exact_mod_cast hbel2
  have hocclt : occCount t < t.slots.length := by
    rw [hc.occ_eq]
    have hsz : t.size = t.slots.length := rfl
    omega
  obtain ⟨t₁, hput⟩ := put_some_of_occCount_lt t key value hocclt
  obtain ⟨hc₁, hlen₁⟩ := invCore_put hc key value hfresh hput
  have ht₁size : t₁.size = t.size := hlen₁
  by_cases htrig : (((t₁.size * 2) / 3 : Nat) : Int) ≤ t₁.len
  · have hred : rputF (f + 1) t key value =
        reinsertF f (mkTable V (t₁.size * 2)) t₁.slots := by
      rw [rputF_succ, hput]
      exact if_pos htrig
    rw [hred]
    have hmk : InvCore (mkTable V (t₁.size * 2)) [] := by
      refine ⟨by simp [mkTable], ?_, ?_, ?_, ?_⟩
      · rw [occCount_mk]
        rfl
      · intro p hp
        cases hp
      · intro i k v hcon
        exact absurd hcon (mk_no_occ _ i k v)
      · intro i j k v v' hi _
        exact absurd hi (mk_no_occ _ i k v)
    have hmklen : (mkTable V (t₁.size * 2)).slots.length = t₁.size * 2 := by
      simp [mkTable]
    have hopl : (occPairs t₁.slots).length = assoc.length + 1 := by
      rw [occPairs_length]
      have h := hc₁.occ_eq
      unfold occCount at h
      rw [List.length_append, List.length_singleton] at h
      exact h
    have hbound : ([] : List (Nat × V)).length + (occPairs t₁.slots).length <
        ((mkTable V (t₁.size * 2)).slots.length * 2) / 3 := by
      rw [List.length_nil, hmklen, hopl, ht₁size]
      omega
    have hnd : (([] ++ occPairs t₁.slots).map Prod.fst).Nodup := by
      rw [List.nil_append]
      exact occPairs_keys_nodup t₁.slots hc₁.key_inj
    obtain ⟨u', h1, h2, h3⟩ :=
      reinsert_invCore t₁.slots (mkTable V (t₁.size * 2)) [] f (by omega) hmk hbound hnd
    have hmemto : ∀ p ∈ (assoc ++ [(key, value)]), p ∈ occPairs t₁.slots := by
      intro p hp
      obtain ⟨pk, pv⟩ := p
      obtain ⟨i, hilt, hi⟩ := get_some_slot t₁ pk pv (hc₁.gets (pk, pv) hp)
      exact (mem_occPairs t₁.slots pk pv).mpr ⟨i, hi⟩
    have husize : u'.size = t.size * 2 := by
      show u'.slots.length = t.size * 2
      rw [h3, hmklen, ht₁size]
    have hl : u'.len = ((assoc.length + 1 : Nat) : Int) := by
      rw [h2.len_eq, List.nil_append, hopl]
    refine ⟨u', h1, ⟨?_, ?_, ?_⟩⟩
    · refine ⟨?_, ?_, ?_, ?_, h2.key_inj⟩
      · rw [hl, List.length_append, List.length_singleton]
      · have h := h2.occ_eq
        rw [List.nil_append, hopl] at h
        rw [h, List.length_append, List.length_singleton]
      · intro p hp
        exact h2.gets p (by rw [List.nil_append]; exact hmemto p hp)
      · intro i k v hi
        have hmem := h2.occ_mem i k v hi
        rw [List.nil_append] at hmem
        obtain ⟨i₂, hi₂⟩ := (mem_occPairs t₁.slots k v).mp hmem
        exact hc₁.occ_mem i₂ k v hi₂
    · rw [hl, husize]
      have hnat : assoc.length + 1 < ((t.size * 2) * 2) / 3 := by omega
      exact_mod_cast hnat
    · rw [husize]
      omega
  · have hred : rputF (f + 1) t key value = some t₁ := by
      rw [rputF_succ, hput]
      exact if_neg htrig
    rw [hred]
    refine ⟨t₁, rfl, ⟨hc₁, Int.not_le.mp htrig, ?_⟩⟩
    rw [ht₁size]
    exact hI.size_min

/-- The freshly constructed resizable table satisfies the invariant with the
empty association. -/
theorem inv_mkResizable (V : Type) : Inv (mkResizable V) [] := by
  refine ⟨⟨by simp [mkResizable, mkTable], ?_, ?_, ?_, ?_⟩, ?_, ?_⟩
  · rw [show mkResizable V = mkTable V 8 from rfl, occCount_mk]
    rfl
  · intro p hp
    cases hp
  · intro i k v hcon
    exact absurd hcon (mk_no_occ _ i k v)
  · intro i j k v v' hi _
    exact absurd hi (mk_no_occ _ i k v)
  · show (mkResizable V).len < _
    have hsz : (mkResizable V).size = 8 := by simp [mkResizable, mkTable, Table.size, MIN_SIZE]
    rw [hsz, show (mkResizable V).len = 0 from rfl]
    decide
  · show 8 ≤ (mkResizable V).size
    simp [mkResizable, mkTable, Table.size, MIN_SIZE]

/-- Any sequence of distinct-key resizable puts succeeds and yields a table
satisfying the invariant for all inserted pairs. -/
theorem runRPuts_inv {V : Type} :
    ∀ (ps : List (Nat × V)) (t : Table V) (assoc : List (Nat × V)),
      Inv t assoc → ((assoc ++ ps).map Prod.fst).Nodup →
      ∃ t', runRPuts t ps = some t' ∧ Inv t' (assoc ++ ps) := by
  intro ps
  induction ps with
  | nil =>
    intro t assoc hI _
    exact ⟨t, rfl, by rwa [List.append_nil]⟩
  | cons p rest ih =>
    obtain ⟨k, v⟩ := p
    intro t assoc hI hnd
    have hfresh : k ∉ assoc.map Prod.fst := by
      rw [List.map_append] at hnd
      have hdisj := (List.nodup_append.mp hnd).2.2
      intro hcon
      exact hdisj hcon (by simp)
    obtain ⟨t₁, hrput, hI₁⟩ := inv_rput hI k v hfresh (t.size + 2) (by omega)
    have hred : runRPuts t ((k, v) :: rest) = runRPuts t₁ rest := by
      show (match rput t k v with
        | none => none
        | some t' => runRPuts t' rest) = runRPuts t₁ rest
      rw [show rput t k v = some t₁ from hrput]
    rw [hred]
    have hnd' : (((assoc ++ [(k, v)]) ++ rest).map Prod.fst).Nodup := by
      rw [List.append_assoc, List.singleton_append]
      exact hnd
    obtain ⟨t', h1, h2⟩ := ih t₁ (assoc ++ [(k, v)]) hI₁ hnd'
    refine ⟨t', h1, ?_⟩
    rwa [List.append_assoc, List.singleton_append] at h2

end HT

namespace DH

/-- Inserting value 5 (home slot 5, secondary hash 5) into `cycleTable`
leaves the Copilot1/gemini1 collision loop alternating between the occupied
positions 5 and 0 for ever: whatever the fuel, the loop is still running. -/
theorem cycleTable_loop : ∀ (fuel i nk : Nat), nk = 0 ∨ nk = 5 →
    collisionAux cycleTable 5 5 i nk fuel = none := by
  intro fuel
  induction fuel with
  | zero => intro i nk _; rfl
  | succ fuel ih =>
    intro i nk h
    have hpos : hashDoubleFunction cycleTable 5 5 i = 0 ∨
        hashDoubleFunction cycleTable 5 5 i = 5 := by
      have h2 : hashFunction2 cycleTable 5 5 = 5 := by decide
      have hsz : cycleTable.sizeTable = 10 := rfl
      unfold hashDoubleFunction
      rw [h2, hsz]
      rcases Nat.even_or_odd i with ⟨m, rfl⟩ | ⟨m, rfl⟩
      · left
        have hmul : (m + m) * 5 = m * 10 := by ring
        rw [hmul, Nat.mul_mod_left]
      · right
        have hmul : (2 * m + 1) * 5 = 5 + m * 10 := by ring
        rw [hmul, Nat.add_mul_mod_self_right]
    have hbg : balancedGe cycleTable = true := by decide
    rcases h with rfl | rfl
    · have hv : cycleTable.values[0]? = some (some 20) := rfl
      have hstep : collisionAux cycleTable 5 5 i 0 (fuel + 1) =
          collisionAux cycleTable 5 5 (i + 1) (hashDoubleFunction cycleTable 5 5 i) fuel := by
        simp [collisionAux, hv, hbg]
      rw [hstep]
      exact ih (i + 1) _ hpos
    · have hv : cycleTable.values[5]? = some (some 15) := rfl
      have hstep : collisionAux cycleTable 5 5 i 5 (fuel + 1) =
          collisionAux cycleTable 5 5 (i + 1) (hashDoubleFunction cycleTable 5 5 i) fuel := by
        simp [collisionAux, hv, hbg]
      rw [hstep]
      exact ih (i + 1) _ hpos

/-- Whatever the fuel, `Copilot1._collision_resolution(5, 5)` on
`cycleTable` has not returned: the probe loop is genuinely unbounded. -/
theorem cycleTable_no_return (fuel : Nat) :
    collisionResolution cycleTable 5 5 fuel = none := by
  unfold collisionResolution
  exact cycleTable_loop fuel 1 (hashFunction cycleTable 5) (Or.inr rfl)

/-- At an insert, where the collision helpers receive the home slot
`hash_function(data)` as `key`, both the Copilot1 and the Claude1 probe
computation agree with the spec's formula `(i * h2(v)) mod size` with
`h2(v) = p - (v mod p)` and `p` the smallest prime ≥ `v mod size`: one value
feeds both the prime derivation and the inner modulo. -/
theorem probe_formula (t : DHTable) (key data i : Nat)
    (hkey : key = hashFunction t data) :
    hashDoubleFunction t key data i = specProbeOffset t.sizeTable data i ∧
    calculateProbePosition t key data i = specProbeOffset t.sizeTable data i := by
  subst hkey
  have hmm : hashFunction t data % t.sizeTable = data % t.sizeTable :=
    Nat.mod_mod_of_dvd data (dvd_refl t.sizeTable)
  constructor
  · simp only [hashDoubleFunction, hashFunction2, specProbeOffset, nextPrimeGe, hmm]
  · simp only [calculateProbePosition, calculateSecondHash, getSecondaryPrime,
      specProbeOffset, nextPrimeGe, hmm]

end DH


section Claims

open HT DH

/-- C1: the claim (and the spec invariant it quotes) is right and the code is
wrong.  `put` writes into the first `_empty`-or-`_deleted` slot of the probe
chain without checking whether the key already occupies a later slot, so on a
capacity-3 table the sequence `put(0,10); put(3,20); del_(0); put(3,30)`
leaves key 3 in two Occupied slots (0 and 1) with `_len = 2` for a single
logical key, and the subsequent `del_(3); get(3)` resurrects the stale value
20 — contradicting the code's own documentation of `put`/`del_`.  This
theorem evaluates the embedded code on that failing input. -/
theorem claim_C1_duplicate_key_eval :
    put (mkTable Int 3) 0 10 =
      some ⟨[Slot.occupied 0 10, Slot.empty, Slot.empty], 1⟩ ∧
    put (⟨[Slot.occupied 0 10, Slot.empty, Slot.empty], 1⟩ : Table Int) 3 20 =
      some ⟨[Slot.occupied 0 10, Slot.occupied 3 20, Slot.empty], 2⟩ ∧
    (del (⟨[Slot.occupied 0 10, Slot.occupied 3 20, Slot.empty], 2⟩ : Table Int) 0).1 =
      ⟨[Slot.deleted, Slot.occupied 3 20, Slot.empty], 1⟩ ∧
    put (⟨[Slot.deleted, Slot.occupied 3 20, Slot.empty], 1⟩ : Table Int) 3 30 =
      some ⟨[Slot.occupied 3 30, Slot.occupied 3 20, Slot.empty], 2⟩ ∧
    ((⟨[Slot.occupied 3 30, Slot.occupied 3 20, Slot.empty], 2⟩ : Table Int).slots[0]? =
        some (Slot.occupied 3 30) ∧
      (⟨[Slot.occupied 3 30, Slot.occupied 3 20, Slot.empty], 2⟩ : Table Int).slots[1]? =
        some (Slot.occupied 3 20)) ∧
    get (del (⟨[Slot.occupied 3 30, Slot.occupied 3 20, Slot.empty], 2⟩ : Table Int) 3).1 3 =
      some 20 := by
  decide

/-- C2, counterexample: with key 5 present (home slot 2 of a capacity-3
table), `del_(5)` returns Python `None` — never a boolean — so "delete
returns true iff the key was present" is false on the code as written. -/
theorem claim_C2_counterexample :
    get (⟨[Slot.empty, Slot.empty, Slot.occupied 5 42], 1⟩ : Table Int) 5 = some 42 ∧
    (del (⟨[Slot.empty, Slot.empty, Slot.occupied 5 42], 1⟩ : Table Int) 5).2 =
      PyRet.pyNone ∧
    (del (⟨[Slot.empty, Slot.empty, Slot.occupied 5 42], 1⟩ : Table Int) 5).2 ≠
      PyRet.pyBool true ∧
    (del (⟨[Slot.empty, Slot.empty, Slot.occupied 5 42], 1⟩ : Table Int) 5).2 ≠
      PyRet.pyBool false := by
  decide

/-- C2, amended: for every table state and key, `del_` returns Python `None`
(never a boolean); presence is observable only through the state: when the
key is present (`get` finds it) `_len` drops by one, and when it is absent
the table is unchanged. -/
theorem claim_C2_del_returns_none (V : Type) (t : Table V) (key : Nat) :
    (del t key).2 = PyRet.pyNone ∧
    ((get t key).isSome → (del t key).1.len = t.len - 1) ∧
    (get t key = none → (del t key).1 = t) :=
  ⟨del_ret t key, (del_effects t key).1, (del_effects t key).2⟩

/-- Witness for C2's amended claim at a concrete input. -/
theorem claim_C2_witness :
    (get (⟨[Slot.empty, Slot.occupied 9 1], 1⟩ : Table Int) 9).isSome = true ∧
    (del (⟨[Slot.empty, Slot.occupied 9 1], 1⟩ : Table Int) 9).1.len =
      (⟨[Slot.empty, Slot.occupied 9 1], 1⟩ : Table Int).len - 1 :=
  ⟨by decide, (claim_C2_del_returns_none Int ⟨[Slot.empty, Slot.occupied 9 1], 1⟩ 9).2.1
    (by decide)⟩

/-- C3, counterexample: in `Copilot1._collision_resolution` (and gemini1's,
which has the same control flow) the load-factor condition is the opposite
of the claim.  With the load factor 1/3 at or above the ceiling 1/10, the
loop computes a next probe position and returns position 2 instead of
reporting the table too full; with the same state and ceiling 9/10 (load
strictly below the ceiling) it returns no position instead of probing. -/
theorem claim_C3_counterexample :
    balancedGe ⟨[some 9, none, none], 1, 10⟩ = true ∧
    collisionResolution ⟨[some 9, none, none], 1, 10⟩ 0 0 5 = some (some 2) ∧
    balancedGe ⟨[some 9, none, none], 9, 10⟩ = false ∧
    collisionResolution ⟨[some 9, none, none], 9, 10⟩ 0 0 5 = some none := by
  decide

/-- C3, amended: when the examined slot is occupied by a different value,
the Copilot1/gemini1 loop computes a next probe position exactly while the
load factor is at or above `lim_charge` and reports no position as soon as
the load factor is below the ceiling — the inverse of the claim — while the
Claude1 variant behaves as the claim states (gives up at or above the
ceiling, probes below it). -/
theorem claim_C3_load_condition (t : DHTable) (key data i nk v fuel : Nat)
    (hv : t.values[nk]? = some (some v)) (hne : v ≠ key) :
    (balancedGe t = true →
      collisionAux t key data i nk (fuel + 1) =
        collisionAux t key data (i + 1) (hashDoubleFunction t key data i) fuel) ∧
    (balancedGe t = false →
      collisionAux t key data i nk (fuel + 1) = some none) ∧
    (balancedGe t = true →
      claudeCollisionAux t key data i nk (fuel + 1) = some none) ∧
    (balancedGe t = false →
      claudeCollisionAux t key data i nk (fuel + 1) =
        claudeCollisionAux t key data (i + 1) (calculateProbePosition t key data i) fuel) := by
  refine ⟨fun hb => ?_, fun hb => ?_, fun hb => ?_, fun hb => ?_⟩ <;>
    simp [collisionAux, claudeCollisionAux, hv, hne, hb]

/-- Witness for C3's amended claim at a concrete input. -/
theorem claim_C3_witness :
    (⟨[some 9, none, none], 1, 10⟩ : DHTable).values[0]? = some (some 9) ∧
    collisionAux ⟨[some 9, none, none], 1, 10⟩ 0 0 1 0 3 =
      collisionAux ⟨[some 9, none, none], 1, 10⟩ 0 0 2
        (hashDoubleFunction ⟨[some 9, none, none], 1, 10⟩ 0 0 1) 2 :=
  ⟨rfl, (claim_C3_load_condition ⟨[some 9, none, none], 1, 10⟩ 0 0 1 0 9 2 rfl
    (by decide)).1 (by decide)⟩

/-- C4, counterexample: the DoubleHash probe loop is not bounded by the
table size.  On `cycleTable` (size 10, reachable by inserting 20 and 15 into
their home slots with ceiling 1/10) the insert of value 5 probes only the
occupied positions 5 and 0; after 10 slot examinations — the table size —
`_collision_resolution` still has not resolved, returned not-found or
failed. -/
theorem claim_C4_counterexample :
    DHTable.sizeTable cycleTable = 10 ∧
    collisionResolution cycleTable 5 5 10 = none := by
  decide

/-- C4, amended: `put`, `get` and `del_` of the linear-probing table do
terminate within at most `size` slot examinations on every table state with
positive capacity (the loops never exhaust `size` fuel), but the claim's
extension to the DoubleHash strategy's probe loop is false: on `cycleTable`
that loop runs for ever (for every fuel it has still not returned). -/
theorem claim_C4_termination :
    (∀ (V : Type) (t : Table V) (key : Nat) (value : V), 0 < t.size →
      putAux t key value (key % t.size) (key % t.size) t.size ≠ none ∧
      getAux t key (key % t.size) (key % t.size) t.size ≠ none ∧
      delAux t key (key % t.size) (key % t.size) t.size ≠ none) ∧
    (∀ fuel, collisionResolution cycleTable 5 5 fuel = none) := by
  constructor
  · intro V t key value hpos
    have hin : key % t.size < t.size := Nat.mod_lt _ hpos
    have h0 : (key % t.size + 0) % t.size = key % t.size := by
      rw [Nat.add_zero, Nat.mod_eq_of_lt hin]
    refine ⟨?_, ?_, ?_⟩
    · have h := (putAux_probe t key value (key % t.size) hin t.size 0 hpos (by omega)).1
      rwa [h0] at h
    · have h := getAux_probe_ne t key (key % t.size) hin t.size 0 hpos (by omega)
      rwa [h0] at h
    · have h := delAux_probe_ne t key (key % t.size) hin t.size 0 hpos (by omega)
      rwa [h0] at h
  · exact cycleTable_no_return

/-- Witness for C4's amended claim at a concrete input. -/
theorem claim_C4_witness :
    0 < (mkTable Int 3).size ∧
    putAux (mkTable Int 3) 5 7 (5 % (mkTable Int 3).size) (5 % (mkTable Int 3).size)
      (mkTable Int 3).size ≠ none :=
  ⟨by decide, (claim_C4_termination.1 Int (mkTable Int 3) 5 7 (by decide)).1⟩

/-- C5: at an insert — where the strategy receives the home slot
`hash_function(data) = data mod size` as its `key` argument — the probe
position computed at attempt `i` by Copilot1's `__hash_double_function` and
by Claude1's `_calculate_probe_position` equals the spec's formula
`(i * h2(v)) mod size`, with `h2(v) = p - (v mod p)` and `p` the smallest
prime ≥ `(v mod size)`: a single input value feeds both the prime
derivation and the inner modulo. -/
theorem claim_C5_probe_formula (t : DHTable) (key data i : Nat)
    (hkey : key = hashFunction t data) :
    hashDoubleFunction t key data i = specProbeOffset t.sizeTable data i ∧
    calculateProbePosition t key data i = specProbeOffset t.sizeTable data i :=
  probe_formula t key data i hkey

/-- Witness for C5 at a concrete input (size 11, value 45, attempt 3; the
common offset evaluates to 3). -/
theorem claim_C5_witness :
    (1 : Nat) = hashFunction ⟨List.replicate 11 none, 3, 4⟩ 45 ∧
    specProbeOffset 11 45 3 = 3 ∧
    hashDoubleFunction ⟨List.replicate 11 none, 3, 4⟩ 1 45 3 =
      specProbeOffset (DHTable.sizeTable ⟨List.replicate 11 none, 3, 4⟩) 45 3 :=
  ⟨by decide, by decide,
    (claim_C5_probe_formula ⟨List.replicate 11 none, 3, 4⟩ 1 45 3 (by decide)).1⟩

/-- C6: round trip — for every table state, key and value, if `put`
succeeds then an immediately following `get` of that key returns the value
just stored. -/
theorem claim_C6_round_trip (V : Type) (t : Table V) (key : Nat) (value : V)
    (t' : Table V) (h : put t key value = some t') :
    get t' key = some value :=
  put_get t key value t' h

/-- Witness for C6 at a concrete input. -/
theorem claim_C6_witness :
    put (mkTable Int 3) 5 7 =
      some ⟨[Slot.empty, Slot.empty, Slot.occupied 5 7], 1⟩ ∧
    get (⟨[Slot.empty, Slot.empty, Slot.occupied 5 7], 1⟩ : Table Int) 5 = some 7 :=
  ⟨by decide, claim_C6_round_trip Int (mkTable Int 3) 5 7 _ (by decide)⟩

/-- C7: tombstones preserve probe chains — for distinct keys with the same
home slot (so that k2's probe chain passes through k1's slot), after
`put(k1,v1); put(k2,v2); delete(k1)` on a fresh table of any capacity ≥ 2,
both puts succeed and `get(k2)` still returns `v2`: the `_deleted` sentinel
is probed past rather than treated as `_empty`. -/
theorem claim_C7_tombstone (V : Type) (n k1 k2 : Nat) (v1 v2 : V)
    (hn : 2 ≤ n) (hne : k1 ≠ k2) (_hhome : k1 % n = k2 % n) :
    ∃ t1 t2, put (mkTable V n) k1 v1 = some t1 ∧
      put t1 k2 v2 = some t2 ∧
      get (del t2 k1).1 k2 = some v2 := by
  have hlen0 : (mkTable V n).slots.length = n := by
    simp [mkTable]
  obtain ⟨t1, h1⟩ : ∃ t1, put (mkTable V n) k1 v1 = some t1 := by
    apply put_some_of_occCount_lt
    rw [occCount_mk, hlen0]
    omega
  have hocc1 : occCount t1 = occCount (mkTable V n) + 1 :=
    (put_fresh_effects _ k1 v1 t1 h1 (fun i v₀ => mk_no_occ n i k1 v₀)).2.1
  have hlen1 : t1.slots.length = n := by
    rw [put_length _ _ _ _ h1, hlen0]
  obtain ⟨t2, h2⟩ : ∃ t2, put t1 k2 v2 = some t2 := by
    apply put_some_of_occCount_lt
    rw [hocc1, occCount_mk, hlen1]
    omega
  exact ⟨t1, t2, h1, h2,
    get_pres_del t2 k1 k2 hne.symm v2 (put_get t1 k2 v2 t2 h2)⟩

/-- Witness for C7 at a concrete input (capacity 3, keys 0 and 3 share home
slot 0). -/
theorem claim_C7_witness :
    ((2 ≤ 3) ∧ (0 : Nat) ≠ 3 ∧ 0 % 3 = 3 % 3) ∧
    (∃ t1 t2, put (mkTable Int 3) 0 10 = some t1 ∧
      put t1 3 20 = some t2 ∧
      get (del t2 0).1 3 = some 20) :=
  ⟨⟨by decide, by decide, by decide⟩,
    claim_C7_tombstone Int 3 0 3 10 20 (by decide) (by decide) (by decide)⟩

/-- C8: `put` fails with `TableFull` exactly when all `size` probe positions
of the cycle starting at the home slot are occupied by foreign keys (no
Empty, no Deleted, no matching key among the `size` visited slots, at which
point the rehash returns to the home slot); concretely, on a capacity-3
linear-probing table, puts of keys 0, 1, 2 succeed and a put of key 3 then
fails. -/
theorem claim_C8_full_detection :
    (∀ (V : Type) (t : Table V) (key : Nat) (value : V), 0 < t.size →
      (put t key value = none ↔
        ∀ j, j < t.size → occOther t key ((key % t.size + j) % t.size))) ∧
    (put (mkTable Int 3) 0 100 =
        some ⟨[Slot.occupied 0 100, Slot.empty, Slot.empty], 1⟩ ∧
      put (⟨[Slot.occupied 0 100, Slot.empty, Slot.empty], 1⟩ : Table Int) 1 101 =
        some ⟨[Slot.occupied 0 100, Slot.occupied 1 101, Slot.empty], 2⟩ ∧
      put (⟨[Slot.occupied 0 100, Slot.occupied 1 101, Slot.empty], 2⟩ : Table Int) 2 102 =
        some ⟨[Slot.occupied 0 100, Slot.occupied 1 101, Slot.occupied 2 102], 3⟩ ∧
      put (⟨[Slot.occupied 0 100, Slot.occupied 1 101, Slot.occupied 2 102], 3⟩ : Table Int)
        3 103 = none) := by
  constructor
  · intro V t key value hpos
    exact put_full_iff t key value hpos
  · exact ⟨by decide, by decide, by decide, by decide⟩

/-- Witness for C8's universally quantified part at a concrete input. -/
theorem claim_C8_witness :
    0 < (⟨[Slot.occupied 0 100, Slot.occupied 1 101, Slot.occupied 2 102], 3⟩ :
      Table Int).size ∧
    (put (⟨[Slot.occupied 0 100, Slot.occupied 1 101, Slot.occupied 2 102], 3⟩ :
        Table Int) 3 103 = none ↔
      ∀ j, j < (⟨[Slot.occupied 0 100, Slot.occupied 1 101, Slot.occupied 2 102], 3⟩ :
          Table Int).size →
        occOther (⟨[Slot.occupied 0 100, Slot.occupied 1 101, Slot.occupied 2 102], 3⟩ :
            Table Int) 3
          ((3 % (⟨[Slot.occupied 0 100, Slot.occupied 1 101, Slot.occupied 2 102], 3⟩ :
              Table Int).size + j) %
            (⟨[Slot.occupied 0 100, Slot.occupied 1 101, Slot.occupied 2 102], 3⟩ :
              Table Int).size)) :=
  ⟨by decide, claim_C8_full_detection.1 Int
    ⟨[Slot.occupied 0 100, Slot.occupied 1 101, Slot.occupied 2 102], 3⟩ 3 103 (by decide)⟩

/-- C9: growth preserves all entries — for every sequence of puts of
pairwise distinct keys into a freshly constructed `ResizableHashTable`
(including sequences long enough to trigger two or more resizes), every put
succeeds, afterwards `get` returns the stored value for each key, and
`len()` equals exactly the number of keys. -/
theorem claim_C9_growth (V : Type) (ps : List (Nat × V))
    (hnd : (ps.map Prod.fst).Nodup) :
    ∃ t', runRPuts (mkResizable V) ps = some t' ∧
      (∀ p ∈ ps, get t' p.1 = some p.2) ∧ t'.len = (ps.length : Int) := by
  obtain ⟨t', h1, h2⟩ := runRPuts_inv ps (mkResizable V) [] (inv_mkResizable V)
    (by simpa using hnd)
  refine ⟨t', h1, ?_, ?_⟩
  · intro p hp
    exact h2.core.gets p (by simpa using hp)
  · rw [h2.core.len_eq]
    simp

/-- Witness for C9 at a concrete input: 12 distinct keys, which drive the
size-8 table through two resizes (8 → 16 at the 5th put, 16 → 32 at the
10th). -/
theorem claim_C9_witness :
    ((([(0, (0 : Int)), (1, 1), (2, 2), (3, 3), (4, 4), (5, 5), (6, 6), (7, 7),
        (8, 8), (9, 9), (10, 10), (11, 11)] : List (Nat × Int)).map Prod.fst).Nodup) ∧
    (∃ t', runRPuts (mkResizable Int)
        [(0, (0 : Int)), (1, 1), (2, 2), (3, 3), (4, 4), (5, 5), (6, 6), (7, 7),
          (8, 8), (9, 9), (10, 10), (11, 11)] = some t' ∧
      (∀ p ∈ ([(0, (0 : Int)), (1, 1), (2, 2), (3, 3), (4, 4), (5, 5), (6, 6), (7, 7),
          (8, 8), (9, 9), (10, 10), (11, 11)] : List (Nat × Int)), get t' p.1 = some p.2) ∧
      t'.len = (12 : Int)) :=
  ⟨by decide, claim_C9_growth Int _ (by decide)⟩

/-- C10 (implicit): a stored Python `None` is indistinguishable from absence
at the public interface — after a successful `put(k, None)`, `get(k)`
returns the very `None` that also signals not-found, and `__contains__`
(defined as `get(key) is not None`) reports `False`, even though the key
occupies a slot and is counted by `_len` (concretely: a fresh table after
`put(0, None)` has the slot occupied and `_len = 1`, yet `0 in table` is
`False`). -/
theorem claim_C10_none_value :
    (∀ (t : Table (Option Int)) (key : Nat) (t' : Table (Option Int)),
      put t key none = some t' →
      get t' key = some none ∧ getPy t' key = none ∧ containsPy t' key = false) ∧
    (put (mkTable (Option Int) 3) 0 none =
        some ⟨[Slot.occupied 0 none, Slot.empty, Slot.empty], 1⟩ ∧
      (⟨[Slot.occupied 0 none, Slot.empty, Slot.empty], 1⟩ : Table (Option Int)).len = 1 ∧
      containsPy ⟨[Slot.occupied 0 none, Slot.empty, Slot.empty], 1⟩ 0 = false) := by
  constructor
  · intro t key t' h
    have hg : get t' key = some none := put_get t key none t' h
    refine ⟨hg, ?_, ?_⟩
    · unfold getPy
      rw [hg]
    · unfold containsPy getPy
      rw [hg]
      rfl
  · exact ⟨by decide, by decide, by decide⟩

/-- Witness for C10's universally quantified part at a concrete input. -/
theorem claim_C10_witness :
    put (mkTable (Option Int) 5) 2 none =
      some ⟨[Slot.empty, Slot.empty, Slot.occupied 2 none, Slot.empty, Slot.empty], 1⟩ ∧
    containsPy ⟨[Slot.empty, Slot.empty, Slot.occupied 2 none, Slot.empty, Slot.empty], 1⟩
      2 = false :=
  ⟨by decide, (claim_C10_none_value.1 (mkTable (Option Int) 5) 2 _ (by decide)).2.2⟩

end Claims
